import Mathlib

/-!
# Verification of the validation pipeline of `llm_migration`

A shallow embedding of the validation core of the repository
(`src/utils/validation.py`, `src/main.py`, and the repair-extraction part of
`src/utils/llm_client.py`) and proofs of the testable properties stated in the
specification.

Modelling conventions:
* All text is modelled as `List Char`.  Python `str.find`, `str.strip`,
  slicing and the concrete regular expressions used by the source are
  translated into explicit recursive scanning functions whose semantics
  mirror `re.search` / `re.sub` leftmost (and, for `.+?`, shortest)
  matching on the concrete patterns of the source.
* External collaborators (the ESLint / tsc / yarn processes, the file read
  after `eslint --fix`, and the text-completion service) are modelled as
  oracles: functions from an invocation counter to the value the Python code
  would observe.  Exceptions raised by the completion call are modelled with
  `Except`.
* The `json` library is modelled on the fragment the status marker uses:
  objects with string keys whose values are strings, non-negative integers,
  or nested objects.  Strings are restricted to printable ASCII without
  `"` and `\`, which is exactly the fragment where `json.dumps` emits the
  characters unescaped (the marker payloads produced by the program live in
  this fragment).  Floating point division in the success-rate computation is
  modelled by exact floor division.
-/

namespace LlmMigration

/-! ## String toolkit -/

/-- Boolean prefix test on character lists. -/
def pfx : List Char → List Char → Bool
  | [], _ => true
  | _ :: _, [] => false
  | a :: as, b :: bs => if a = b then pfx as bs else false

/-- Python's `pat in s` substring test (for nonempty `pat`). -/
def occursIn (pat : List Char) : List Char → Bool
  | [] => pfx pat []
  | s@(_ :: t) => pfx pat s || occursIn pat t

/-- Python's `s.find(pat)` together with `s.split(pat, 1)`: locate the first
occurrence of `pat` in `s`, returning the part before it and the part after
it.  `none` when `pat` does not occur. -/
def splitFirst (pat : List Char) : List Char → Option (List Char × List Char)
  | [] => if pfx pat [] then some ([], []) else none
  | s@(c :: t) =>
    if pfx pat s then some ([], s.drop pat.length)
    else (splitFirst pat t).map fun p => (c :: p.1, p.2)

/-- Python `str.find`: index of the first occurrence, `-1` when absent. -/
def pyFind (pat s : List Char) : Int :=
  match splitFirst pat s with
  | some (a, _) => (a.length : Int)
  | none => -1

/-- The ASCII whitespace set of Python's `str.strip()`. -/
def isPyWs (c : Char) : Bool :=
  c = ' ' || c = '\t' || c = '\n' || c = '\r' || c = '\x0b' || c = '\x0c'

/-- Python `str.strip()`. -/
def pyStrip (s : List Char) : List Char :=
  ((s.dropWhile isPyWs).reverse.dropWhile isPyWs).reverse

/-- Index of the last occurrence of a character. -/
def lastIdxOf (c : Char) : List Char → Option Nat
  | [] => none
  | a :: t =>
    match lastIdxOf c t with
    | some k => some (k + 1)
    | none => if a = c then some 0 else none

theorem pfx_refl_append (p r : List Char) : pfx p (p ++ r) = true := by
  induction p with
  | nil => rfl
  | cons a as ih => simp [pfx, ih]

theorem pfx_length {p s : List Char} (h : pfx p s = true) : p.length ≤ s.length := by
  induction p generalizing s with
  | nil => simp
  | cons a as ih =>
    cases s with
    | nil => simp [pfx] at h
    | cons b bs =>
      simp only [pfx] at h
      split at h
      · simpa using ih h
      · simp at h

theorem pfx_iff_take {p s : List Char} : pfx p s = true ↔ s.take p.length = p := by
  induction p generalizing s with
  | nil => simp [pfx]
  | cons a as ih =>
    cases s with
    | nil => simp [pfx]
    | cons b bs =>
      simp only [pfx, List.length_cons, List.take_succ_cons]
      constructor
      · intro h
        split at h
        · rename_i he; rw [ih.mp h, he]
        · simp at h
      · intro h
        have hb : b = a := (List.cons.injEq _ _ _ _ ▸ h).1
        have ht : bs.take as.length = as := (List.cons.injEq _ _ _ _ ▸ h).2
        simp [hb, ih.mpr ht]

theorem pfx_eq_append {p s : List Char} (h : pfx p s = true) :
    s = p ++ s.drop p.length := by
  conv_lhs => rw [← List.take_append_drop p.length s]
  rw [pfx_iff_take.mp h]

theorem pfx_take_congr {p x y : List Char} (hxy : x.take n = y.take n)
    (hn : p.length ≤ n) : pfx p x = pfx p y := by
  have h1 : x.take p.length = (x.take n).take p.length := by
    rw [List.take_take, inf_eq_left.mpr hn]
  have h2 : y.take p.length = (y.take n).take p.length := by
    rw [List.take_take, inf_eq_left.mpr hn]
  rw [Bool.eq_iff_iff, pfx_iff_take, pfx_iff_take, h1, h2, hxy]

theorem pfx_append_right {p s : List Char} (r : List Char) (h : pfx p s = true) :
    pfx p (s ++ r) = true := by
  induction p generalizing s with
  | nil => rfl
  | cons a as ih =>
    cases s with
    | nil => simp [pfx] at h
    | cons b bs =>
      simp only [pfx, List.cons_append] at h ⊢
      split at h
      · rename_i he; simp [he, ih h]
      · simp at h

theorem seg_congr {x y : List Char} {m i n : Nat} (hxy : x.take m = y.take m)
    (hle : i + n ≤ m) : (x.drop i).take n = (y.drop i).take n := by
  rw [List.take_drop, List.take_drop]
  congr 1
  have hx : x.take (i + n) = (x.take m).take (i + n) := by
    rw [List.take_take, inf_eq_left.mpr hle]
  have hy : y.take (i + n) = (y.take m).take (i + n) := by
    rw [List.take_take, inf_eq_left.mpr hle]
  rw [hx, hy, hxy]

theorem pfx_drop_congr {p x y : List Char} {m i : Nat} (hxy : x.take m = y.take m)
    (hle : i + p.length ≤ m) : pfx p (x.drop i) = pfx p (y.drop i) := by
  rw [Bool.eq_iff_iff, pfx_iff_take, pfx_iff_take, seg_congr hxy hle]

theorem splitFirst_head {pat s : List Char} (h : pfx pat s = true) :
    splitFirst pat s = some ([], s.drop pat.length) := by
  cases s with
  | nil => simp [splitFirst, h]
  | cons c t => simp [splitFirst, h]

theorem splitFirst_cons_neg {pat t : List Char} {c : Char}
    (h : pfx pat (c :: t) = false) :
    splitFirst pat (c :: t) = (splitFirst pat t).map fun p => (c :: p.1, p.2) := by
  simp [splitFirst, h]

theorem splitFirst_spec {pat s a b : List Char}
    (h : splitFirst pat s = some (a, b)) : s = a ++ pat ++ b := by
  induction s generalizing a b with
  | nil =>
    simp only [splitFirst] at h
    split at h
    · rename_i hp
      cases pat with
      | nil => simp_all
      | cons p ps => simp [pfx] at hp
    · simp at h
  | cons c t ih =>
    simp only [splitFirst] at h
    split at h
    · rename_i hp
      have he := pfx_eq_append hp
      simp only [Option.some.injEq, Prod.mk.injEq] at h
      rw [← h.1, ← h.2]
      simpa using he
    · cases ha : splitFirst pat t with
      | none => simp [ha] at h
      | some p =>
        obtain ⟨a', b'⟩ := p
        simp only [ha, Option.map_some', Option.some.injEq, Prod.mk.injEq] at h
        obtain ⟨h1, h2⟩ := h
        subst h2
        have ht := ih ha
        rw [← h1, ht]
        simp

theorem splitFirst_none_at {pat s a b : List Char}
    (h : splitFirst pat s = some (a, b)) :
    ∀ i, i < a.length → pfx pat (s.drop i) = false := by
  induction s generalizing a b with
  | nil =>
    intro i hi
    simp only [splitFirst] at h
    split at h
    · simp only [Option.some.injEq, Prod.mk.injEq] at h
      rw [← h.1] at hi; simp at hi
    · simp at h
  | cons c t ih =>
    intro i hi
    simp only [splitFirst] at h
    split at h
    · simp only [Option.some.injEq, Prod.mk.injEq] at h
      rw [← h.1] at hi; simp at hi
    · rename_i hp
      cases ha : splitFirst pat t with
      | none => simp [ha] at h
      | some p =>
        obtain ⟨a', b'⟩ := p
        simp only [ha, Option.map_some', Option.some.injEq, Prod.mk.injEq] at h
        obtain ⟨h1, h2⟩ := h
        subst h2
        cases i with
        | zero => simpa using (Bool.not_eq_true _).mp hp
        | succ j =>
          have hj : j < a'.length := by
            rw [← h1] at hi; simpa using hi
          simpa using ih ha j hj

theorem splitFirst_eq_none_iff {pat s : List Char} :
    splitFirst pat s = none ↔ occursIn pat s = false := by
  induction s with
  | nil =>
    simp only [splitFirst, occursIn]
    split <;> simp_all
  | cons c t ih =>
    simp only [splitFirst, occursIn]
    split
    · rename_i hp; simp [hp]
    · rename_i hp
      rw [Bool.not_eq_true] at hp
      cases ha : splitFirst pat t <;> simp_all

theorem occursIn_false_drop {pat s : List Char} (h : occursIn pat s = false) :
    ∀ i, pfx pat (s.drop i) = false := by
  intro i
  induction s generalizing i with
  | nil =>
    simp only [occursIn] at h
    simpa [List.drop_nil] using h
  | cons c t ih =>
    simp only [occursIn, Bool.or_eq_false_iff] at h
    cases i with
    | zero => exact h.1
    | succ j => exact ih h.2 j

theorem occursIn_of_pfx_drop {pat s : List Char} {i : Nat}
    (h : pfx pat (s.drop i) = true) : occursIn pat s = true := by
  induction s generalizing i with
  | nil =>
    simp only [List.drop_nil] at h
    simp [occursIn, h]
  | cons c t ih =>
    cases i with
    | zero =>
      rw [List.drop_zero] at h
      simp [occursIn, h]
    | succ j => simp [occursIn, ih (i := j) h]

theorem splitFirst_of_min {pat a b : List Char}
    (h : ∀ i, i < a.length → pfx pat ((a ++ pat ++ b).drop i) = false) :
    splitFirst pat (a ++ pat ++ b) = some (a, b) := by
  induction a with
  | nil =>
    rw [List.nil_append, splitFirst_head (pfx_refl_append _ _), List.drop_left]
  | cons c as ih =>
    have h0 := h 0 (by simp)
    rw [List.drop_zero] at h0
    have hc : (c :: as) ++ pat ++ b = c :: (as ++ pat ++ b) := by simp
    rw [hc] at h0
    rw [hc, splitFirst_cons_neg h0]
    have hrec := ih (fun i hi => by
      have hh := h (i + 1) (by simpa using Nat.succ_lt_succ hi)
      rw [hc] at hh
      simpa using hh)
    rw [hrec]
    rfl

theorem lastIdxOf_eq_none_iff {c : Char} {l : List Char} :
    lastIdxOf c l = none ↔ c ∉ l := by
  induction l with
  | nil => simp [lastIdxOf]
  | cons a t ih =>
    simp only [lastIdxOf, List.mem_cons]
    cases h : lastIdxOf c t with
    | some k =>
      have hct : c ∈ t := by
        by_contra hc
        rw [ih.mpr hc] at h
        exact absurd h (by simp)
      simp [h, hct]
    | none =>
      have hct : c ∉ t := ih.mp h
      simp only [h]
      split
      · rename_i he
        simp [he.symm]
      · rename_i he
        simp only [eq_self_iff_true, true_iff]
        push_neg
        exact ⟨fun hh => he hh.symm, hct⟩

theorem lastIdxOf_decomp {c : Char} {l : List Char} {k : Nat}
    (h : lastIdxOf c l = some k) :
    ∃ xs ys, l = xs ++ c :: ys ∧ xs.length = k ∧ c ∉ ys := by
  induction l generalizing k with
  | nil => simp [lastIdxOf] at h
  | cons a t ih =>
    simp only [lastIdxOf] at h
    cases ht : lastIdxOf c t with
    | some j =>
      simp only [ht, Option.some.injEq] at h
      obtain ⟨xs, ys, h1, h2, h3⟩ := ih ht
      exact ⟨a :: xs, ys, by simp [h1], by simp [h2, ← h], h3⟩
    | none =>
      simp only [ht] at h
      split at h
      · rename_i he
        simp only [Option.some.injEq] at h
        exact ⟨[], t, by simp [he], by simp [← h], lastIdxOf_eq_none_iff.mp ht⟩
      · simp at h

theorem lastIdxOf_append_cons {c : Char} {xs ys : List Char} (h : c ∉ ys) :
    lastIdxOf c (xs ++ c :: ys) = some xs.length := by
  induction xs with
  | nil =>
    rw [List.nil_append]
    simp only [lastIdxOf, lastIdxOf_eq_none_iff.mpr h]
    simp
  | cons a t ih =>
    rw [List.cons_append]
    simp only [lastIdxOf, ih]
    simp

/-! ## A model of the `json` fragment used by the status marker

`update_migration_status` round-trips the marker payload through
`json.loads` / `json.dumps`.  The payloads the program builds are objects
whose values are strings, non-negative integers, or one level of nested
objects.  We model JSON values on exactly that fragment: object keys and
string values restricted to printable ASCII without `"` and `\` (the
fragment on which `json.dumps` with its default `ensure_ascii=True` emits
every character unescaped). -/

mutual
inductive JVal : Type where
  | jstr : List Char → JVal
  | jnum : Nat → JVal
  | jobj : JObj → JVal
inductive JObj : Type where
  | onil : JObj
  | ocons : List Char → JVal → JObj → JObj
end

/-- Python dict assignment `d[k] = v`: overwrite in place, else append. -/
def JObj.set : JObj → List Char → JVal → JObj
  | .onil, k, v => .ocons k v .onil
  | .ocons k' v' t, k, v =>
    if k' = k then .ocons k' v t else .ocons k' v' (JObj.set t k v)

/-- The merge loop `for key, value in status_updates.items(): current_status[key] = value`
(also Python's `dict.update`). -/
def JObj.update : JObj → JObj → JObj
  | cur, .onil => cur
  | cur, .ocons k v t => JObj.update (cur.set k v) t

/-- Python `k in d`. -/
def JObj.hasKey : JObj → List Char → Bool
  | .onil, _ => false
  | .ocons k' _ t, k => if k' = k then true else JObj.hasKey t k

/-- Python `d.get(k)`. -/
def JObj.get? : JObj → List Char → Option JVal
  | .onil, _ => none
  | .ocons k' v t, k => if k' = k then some v else JObj.get? t k

/-- Append one binding at the end. -/
def JObj.snoc : JObj → List Char → JVal → JObj
  | .onil, k, v => .ocons k v .onil
  | .ocons k' v' t, k, v => .ocons k' v' (JObj.snoc t k v)

/-- Concatenation of bindings. -/
def JObj.catO : JObj → JObj → JObj
  | .onil, o => o
  | .ocons k v t, o => .ocons k v (JObj.catO t o)

/-- Characters `json.dumps` (default `ensure_ascii=True`) emits unescaped
inside a string literal: printable ASCII other than `"` and `\`. -/
def wfChar (c : Char) : Bool :=
  (32 ≤ c.toNat && c.toNat ≤ 126) && !(c = '"') && !(c = '\\')

def wfStr (s : List Char) : Bool := s.all wfChar

mutual
/-- Well-formedness of a modelled JSON value: all strings in the unescaped
fragment, all object key lists duplicate-free (a Python `dict` cannot hold
duplicate keys). -/
def JVal.wf : JVal → Bool
  | .jstr s => wfStr s
  | .jnum _ => true
  | .jobj o => JObj.wf o
def JObj.wf : JObj → Bool
  | .onil => true
  | .ocons k v t => wfStr k && !(JObj.hasKey t k) && JVal.wf v && JObj.wf t
end

/-- Decimal digit characters. -/
def digitChar (n : Nat) : Char :=
  match n with
  | 0 => '0' | 1 => '1' | 2 => '2' | 3 => '3' | 4 => '4'
  | 5 => '5' | 6 => '6' | 7 => '7' | 8 => '8' | _ => '9'

/-- Decimal numeral of a natural number (`json.dumps` / `str` on `int`). -/
def natChars (n : Nat) : List Char :=
  if n < 10 then [digitChar n]
  else natChars (n / 10) ++ [digitChar (n % 10)]
decreasing_by exact Nat.div_lt_self (by omega) (by omega)

def digitVal (c : Char) : Nat := c.toNat - 48

def charsVal (l : List Char) : Nat := l.foldl (fun a c => a * 10 + digitVal c) 0

mutual
/-- `json.dumps` with the default separators `", "` and `": "` on the
modelled fragment. -/
def JVal.dumps : JVal → List Char
  | .jstr s => '"' :: s ++ ['"']
  | .jnum n => natChars n
  | .jobj o => '{' :: JObj.dumpsBody o ++ ['}']
/-- The item list of an object, joined by `", "`. -/
def JObj.dumpsBody : JObj → List Char
  | .onil => []
  | .ocons k v .onil => '"' :: k ++ ['"', ':', ' '] ++ JVal.dumps v
  | .ocons k v (.ocons k' v' t) =>
    '"' :: k ++ ['"', ':', ' '] ++ JVal.dumps v ++ [',', ' '] ++
      JObj.dumpsBody (.ocons k' v' t)
end

/-- JSON whitespace. -/
def jWs (c : Char) : Bool := c = ' ' || c = '\t' || c = '\n' || c = '\r'

def skipWs (s : List Char) : List Char := s.dropWhile jWs

/-- Parse the remainder of a string literal after its opening quote: the
body up to the closing quote (rejecting the escapes and control characters
outside the modelled fragment), returning body and remainder. -/
def parseStr (t : List Char) : Option (List Char × List Char) :=
  let body := t.takeWhile wfChar
  match t.drop body.length with
  | '"' :: r => some (body, r)
  | _ => none

/-- Parse a non-negative decimal numeral starting with digit `c` (Python's
scanner rejects leading zeros such as `01`). -/
def parseNum (c : Char) (t : List Char) : Option (JVal × List Char) :=
  let ds := (c :: t).takeWhile Char.isDigit
  if 1 < ds.length ∧ c = '0' then none
  else some (.jnum (charsVal ds), (c :: t).drop ds.length)

/-- Skip whitespace, then expect the character `c`. -/
def expectChar (c : Char) (s : List Char) : Option (List Char) :=
  match skipWs s with
  | d :: r => if d = c then some r else none
  | [] => none

mutual
/-- Recursive-descent model of `json.loads` on the modelled fragment:
parse one value, returning it and the unconsumed remainder.  The fuel
argument dominates the recursion depth; `loads` supplies enough for any
input it can accept. -/
def parseJV : Nat → List Char → Option (JVal × List Char)
  | 0, _ => none
  | fuel + 1, s0 =>
    match skipWs s0 with
    | [] => none
    | c :: t =>
      if c = '"' then (parseStr t).map fun p => (JVal.jstr p.1, p.2)
      else if c = '{' then
        match skipWs t with
        | '}' :: r => some (.jobj .onil, r)
        | _ => (parseJItems fuel .onil t).map fun p => (JVal.jobj p.1, p.2)
      else if c.isDigit then parseNum c t
      else none
/-- Parse `"key": value` items (at least one) up to the closing brace. -/
def parseJItems : Nat → JObj → List Char → Option (JObj × List Char)
  | 0, _, _ => none
  | fuel + 1, acc, s0 =>
    match skipWs s0 with
    | [] => none
    | c :: t =>
      if c = '"' then
        (parseStr t).bind fun kr =>
        (expectChar ':' kr.2).bind fun r2 =>
        (parseJV fuel r2).bind fun vr =>
          match skipWs vr.2 with
          | ',' :: r4 => parseJItems fuel (acc.set kr.1 vr.1) r4
          | '}' :: r4 => some (acc.set kr.1 vr.1, r4)
          | _ => none
      else none
end

/-- `json.loads` on the modelled fragment: a full parse with no trailing
content other than whitespace. -/
def loads (s : List Char) : Option JVal :=
  match parseJV (s.length + 1) s with
  | some (v, r) => if skipWs r = [] then some v else none
  | none => none

/-! ### Lemmas about the JSON model -/

/-- `p` fails on the head of the list (vacuously on `[]`). -/
def headFails (p : Char → Bool) : List Char → Prop
  | [] => True
  | c :: _ => p c = false

theorem takeWhile_append_all {p : Char → Bool} {A B : List Char}
    (hA : ∀ c ∈ A, p c = true) (hB : headFails p B) :
    (A ++ B).takeWhile p = A ∧ (A ++ B).dropWhile p = B := by
  induction A with
  | nil =>
    simp only [List.nil_append]
    cases B with
    | nil => simp
    | cons c t =>
      simp only [headFails] at hB
      simp [List.takeWhile_cons, List.dropWhile_cons, hB]
  | cons a A ih =>
    have ha : p a = true := hA a (by simp)
    have hrec := ih (fun c hc => hA c (by simp [hc]))
    simp [List.takeWhile_cons, List.dropWhile_cons, ha, hrec.1, hrec.2]

theorem skipWs_not_ws {c : Char} {t : List Char} (h : jWs c = false) :
    skipWs (c :: t) = c :: t := by
  simp [skipWs, List.dropWhile_cons, h]

theorem digitVal_digitChar {n : Nat} (h : n < 10) : digitVal (digitChar n) = n := by
  interval_cases n <;> rfl

theorem digitChar_isDigit {n : Nat} (h : n < 10) : (digitChar n).isDigit = true := by
  interval_cases n <;> decide

theorem digitChar_ne_zero {n : Nat} (h1 : 1 ≤ n) (h2 : n < 10) : digitChar n ≠ '0' := by
  interval_cases n <;> decide

theorem natChars_ne_nil (n : Nat) : natChars n ≠ [] := by
  rw [natChars]
  split
  · simp
  · simp

theorem natChars_all_digit (n : Nat) : ∀ c ∈ natChars n, c.isDigit = true := by
  induction n using Nat.strong_induction_on with
  | _ n ih =>
    rw [natChars]
    split
    · rename_i h
      intro c hc
      simp only [List.mem_singleton] at hc
      subst hc
      exact digitChar_isDigit h
    · rename_i h
      intro c hc
      rw [List.mem_append] at hc
      rcases hc with hc | hc
      · exact ih (n / 10) (Nat.div_lt_self (by omega) (by omega)) c hc
      · simp only [List.mem_singleton] at hc
        subst hc
        exact digitChar_isDigit (Nat.mod_lt _ (by omega))

theorem natChars_head_ne_zero {n : Nat} (hn : 1 ≤ n) :
    ∀ c cs, natChars n = c :: cs → c ≠ '0' := by
  induction n using Nat.strong_induction_on with
  | _ n ih =>
    intro c cs hc
    rw [natChars] at hc
    split at hc
    · rename_i h
      simp only [List.cons.injEq] at hc
      rw [← hc.1]
      exact digitChar_ne_zero hn h
    · rename_i h
      have hne := natChars_ne_nil (n / 10)
      cases hd : natChars (n / 10) with
      | nil => exact absurd hd hne
      | cons d ds =>
        rw [hd, List.cons_append, List.cons.injEq] at hc
        rw [← hc.1]
        exact ih (n / 10) (Nat.div_lt_self (by omega) (by omega))
          (by omega : 1 ≤ n / 10) d ds hd

theorem charsVal_natChars (n : Nat) : charsVal (natChars n) = n := by
  induction n using Nat.strong_induction_on with
  | _ n ih =>
    rw [natChars]
    split
    · rename_i h
      simp only [charsVal, List.foldl_cons, List.foldl_nil]
      rw [digitVal_digitChar h]
      omega
    · rename_i h
      have hrec := ih (n / 10) (Nat.div_lt_self (by omega) (by omega))
      simp only [charsVal, List.foldl_append, List.foldl_cons, List.foldl_nil] at hrec ⊢
      rw [hrec, digitVal_digitChar (Nat.mod_lt _ (by omega))]
      omega

theorem natChars_length_gt_one {n : Nat} (h : 1 < (natChars n).length) : 10 ≤ n := by
  by_contra hc
  rw [natChars] at h
  simp only [not_le] at hc
  rw [if_pos hc] at h
  simp at h

/-- The numeral printed for `n` never trips the leading-zero check of the
parser. -/
theorem natChars_no_leading_zero {n : Nat} {c : Char} {cs : List Char}
    (hc : natChars n = c :: cs) : ¬(1 < (natChars n).length ∧ c = '0') := by
  rintro ⟨h1, h2⟩
  have h10 : 10 ≤ n := natChars_length_gt_one h1
  have hh := natChars_head_ne_zero (by omega : 1 ≤ n) c cs hc
  exact hh h2

/-- Induction along the binding spine of an object (the `induction` tactic
does not directly handle the mutual inductive pair). -/
theorem JObj.ind {P : JObj → Prop} (onil : P .onil)
    (ocons : ∀ k v t, P t → P (.ocons k v t)) : ∀ o, P o
  | .onil => onil
  | .ocons k v t => ocons k v t (JObj.ind onil ocons t)

theorem JObj.catO_onil (o : JObj) : o.catO .onil = o := by
  induction o using JObj.ind with
  | onil => rfl
  | ocons k v t ih => simp [JObj.catO, ih]

theorem JObj.snoc_catO (o : JObj) (k : List Char) (v : JVal) (t : JObj) :
    (o.snoc k v).catO t = o.catO (.ocons k v t) := by
  induction o using JObj.ind with
  | onil => rfl
  | ocons k' v' t' ih => simp [JObj.snoc, JObj.catO, ih]

theorem JObj.set_of_not_hasKey {o : JObj} {k : List Char} (v : JVal)
    (h : o.hasKey k = false) : o.set k v = o.snoc k v := by
  induction o using JObj.ind with
  | onil => rfl
  | ocons k' v' t ih =>
    simp only [JObj.hasKey] at h
    split at h
    · simp at h
    · rename_i hne
      simp [JObj.set, JObj.snoc, hne, ih h]

theorem JObj.hasKey_snoc (o : JObj) (k k' : List Char) (v : JVal) :
    (o.snoc k v).hasKey k' = (o.hasKey k' || decide (k = k')) := by
  induction o using JObj.ind with
  | onil => simp [JObj.snoc, JObj.hasKey]
  | ocons k'' v'' t ih =>
    simp only [JObj.snoc, JObj.hasKey, ih]
    split <;> simp

theorem JObj.hasKey_cons_of_tail {k k' : List Char} {v : JVal} {t : JObj}
    (h : t.hasKey k' = true) : (JObj.ocons k v t).hasKey k' = true := by
  simp only [JObj.hasKey]
  split <;> simp [h]

/-- No key of `t` occurs in `acc`. -/
def freshFor (acc t : JObj) : Prop :=
  ∀ k, JObj.hasKey t k = true → JObj.hasKey acc k = false

theorem JObj.update_eq_catO {t : JObj} (hw : t.wf = true) :
    ∀ {acc : JObj}, freshFor acc t → acc.update t = acc.catO t := by
  induction t using JObj.ind with
  | onil =>
    intro acc _
    rw [JObj.catO_onil]
    rfl
  | ocons k v t ih =>
    intro acc hf
    simp only [JObj.wf, Bool.and_eq_true, Bool.not_eq_true'] at hw
    have hk : acc.hasKey k = false := by
      apply hf
      simp [JObj.hasKey]
    have hset := JObj.set_of_not_hasKey (o := acc) (k := k) v hk
    have hf' : freshFor (acc.snoc k v) t := by
      intro k' hk'
      rw [JObj.hasKey_snoc]
      have h1 : acc.hasKey k' = false := hf k' (JObj.hasKey_cons_of_tail hk')
      have h2 : k ≠ k' := by
        intro he
        subst he
        rw [hw.1.1.2] at hk'
        exact absurd hk' (by simp)
      simp [h1, h2]
    show JObj.update (acc.set k v) t = _
    rw [hset, ih hw.2 hf', JObj.snoc_catO]

theorem JObj.update_onil_eq {t : JObj} (hw : t.wf = true) :
    JObj.update .onil t = t := by
  have := @JObj.update_eq_catO _ hw .onil (fun k _ => rfl)
  rw [this]
  rfl

theorem JObj.hasKey_set_ne {o : JObj} {k k' : List Char} {v : JVal}
    (h : k ≠ k') : (o.set k v).hasKey k' = o.hasKey k' := by
  induction o using JObj.ind with
  | onil => simp [JObj.set, JObj.hasKey, h]
  | ocons k'' v'' t ih =>
    simp only [JObj.set]
    split
    · rename_i he
      simp [JObj.hasKey]
    · simp [JObj.hasKey, ih]

theorem JObj.set_wf {o : JObj} {k : List Char} {v : JVal}
    (ho : o.wf = true) (hk : wfStr k = true) (hv : v.wf = true) :
    (o.set k v).wf = true := by
  induction o using JObj.ind with
  | onil => simp [JObj.set, JObj.wf, JObj.hasKey, hk, hv]
  | ocons k' v' t ih =>
    simp only [JObj.wf, Bool.and_eq_true, Bool.not_eq_true'] at ho
    simp only [JObj.set]
    split
    · rename_i he
      subst he
      simp [JObj.wf, ho.1.1.1, ho.1.1.2, hv, ho.2]
    · rename_i hne
      simp only [JObj.wf, Bool.and_eq_true, Bool.not_eq_true']
      exact ⟨⟨⟨ho.1.1.1, by rw [JObj.hasKey_set_ne (fun h => hne h.symm)]; exact ho.1.1.2⟩,
        ho.1.2⟩, ih ho.2⟩

/-- Every key and value of an update mapping is well-formed (duplicate keys
are irrelevant here: `set` merges them). -/
def JObj.allWf : JObj → Prop
  | .onil => True
  | .ocons k v t => wfStr k = true ∧ JVal.wf v = true ∧ JObj.allWf t

theorem JObj.update_wf {u : JObj} :
    ∀ {o : JObj}, o.wf = true → u.allWf → (o.update u).wf = true := by
  induction u using JObj.ind with
  | onil => intro o ho _; exact ho
  | ocons k v t ih =>
    intro o ho hu
    exact ih (JObj.set_wf ho hu.1 hu.2.1) hu.2.2

mutual
/-- Fuel sufficient for `parseJV` to parse the serialization of a value. -/
def JVal.pfuel : JVal → Nat
  | .jstr _ => 1
  | .jnum _ => 1
  | .jobj o => 1 + JObj.pfuel o
def JObj.pfuel : JObj → Nat
  | .onil => 0
  | .ocons _ v t => 1 + max (JVal.pfuel v) (JObj.pfuel t)
end

theorem jval_pfuel_pos : ∀ v : JVal, 1 ≤ JVal.pfuel v
  | .jstr _ => le_refl _
  | .jnum _ => le_refl _
  | .jobj _ => by simp [JVal.pfuel]

mutual
theorem jval_pfuel_le : ∀ v : JVal, JVal.pfuel v ≤ (JVal.dumps v).length + 1
  | .jstr s => by simp [JVal.pfuel, JVal.dumps]
  | .jnum n => by simp [JVal.pfuel, JVal.dumps]
  | .jobj .onil => by simp [JVal.pfuel, JObj.pfuel, JVal.dumps, JObj.dumpsBody]
  | .jobj (.ocons k v t) => by
    have h := jobj_pfuel_le k v t
    simp only [JVal.pfuel, JVal.dumps, List.length_cons, List.length_append]
    omega
termination_by v => sizeOf v
theorem jobj_pfuel_le : ∀ (k : List Char) (v : JVal) (t : JObj),
    JObj.pfuel (.ocons k v t) ≤ (JObj.dumpsBody (.ocons k v t)).length
  | k, v, .onil => by
    have hv := jval_pfuel_le v
    have hpf : JObj.pfuel (.ocons k v .onil) = 1 + max (JVal.pfuel v) 0 := rfl
    have hlen : (JObj.dumpsBody (.ocons k v .onil)).length =
        k.length + (JVal.dumps v).length + 4 := by
      simp only [JObj.dumpsBody, List.length_cons, List.length_append, List.length_nil]
      omega
    rw [hpf, hlen]
    omega
  | k, v, .ocons k' v' t' => by
    have hv := jval_pfuel_le v
    have ht := jobj_pfuel_le k' v' t'
    have hpf : JObj.pfuel (.ocons k v (.ocons k' v' t')) =
        1 + max (JVal.pfuel v) (JObj.pfuel (.ocons k' v' t')) := rfl
    have hlen : (JObj.dumpsBody (.ocons k v (.ocons k' v' t'))).length =
        k.length + (JVal.dumps v).length +
          (JObj.dumpsBody (.ocons k' v' t')).length + 6 := by
      conv_lhs => rw [JObj.dumpsBody]
      simp only [List.length_cons, List.length_append, List.length_nil]
      omega
    rw [hpf, hlen]
    omega
termination_by k v t => sizeOf (JObj.ocons k v t)
end

theorem skipWs_ws_cons {c : Char} {t : List Char} (h : jWs c = true) :
    skipWs (c :: t) = skipWs t := by
  simp [skipWs, List.dropWhile_cons, h]

theorem isDigit_not_special {c : Char} (h : c.isDigit = true) :
    jWs c = false ∧ c ≠ '"' ∧ c ≠ '{' := by
  refine ⟨?_, ?_, ?_⟩
  · cases hj : jWs c with
    | false => rfl
    | true =>
      simp only [jWs, Bool.or_eq_true, decide_eq_true_eq] at hj
      rcases hj with ((h1 | h1) | h1) | h1 <;> (subst h1; exact absurd h (by decide))
  · intro he; subst he; exact absurd h (by decide)
  · intro he; subst he; exact absurd h (by decide)

theorem parseJV_congr_skipWs {s1 s2 : List Char} {fuel : Nat}
    (h : skipWs s1 = skipWs s2) : parseJV (fuel + 1) s1 = parseJV (fuel + 1) s2 := by
  simp only [parseJV]
  rw [h]

theorem parseJItems_congr_skipWs {s1 s2 : List Char} {acc : JObj} {fuel : Nat}
    (h : skipWs s1 = skipWs s2) :
    parseJItems (fuel + 1) acc s1 = parseJItems (fuel + 1) acc s2 := by
  simp only [parseJItems]
  rw [h]

/-- The serialization of a value starts with a non-whitespace character
(`"`, `{` or a digit). -/
theorem dumps_head_shape : ∀ v : JVal, ∃ c cs, JVal.dumps v = c :: cs ∧ jWs c = false
  | .jstr s => ⟨'"', s ++ ['"'], rfl, by decide⟩
  | .jnum n => by
    cases hd : natChars n with
    | nil => exact absurd hd (natChars_ne_nil n)
    | cons c cs =>
      refine ⟨c, cs, hd, ?_⟩
      have hc : c.isDigit = true := natChars_all_digit n c (by rw [hd]; simp)
      exact (isDigit_not_special hc).1
  | .jobj o => ⟨'{', JObj.dumpsBody o ++ ['}'], rfl, by decide⟩

theorem skipWs_dumps_append (v : JVal) (rest : List Char) :
    skipWs (JVal.dumps v ++ rest) = JVal.dumps v ++ rest := by
  obtain ⟨c, cs, hd, hws⟩ := dumps_head_shape v
  rw [hd, List.cons_append, skipWs_not_ws hws]

theorem jobj_wf_parts {k : List Char} {v : JVal} {t : JObj}
    (hw : JObj.wf (.ocons k v t) = true) :
    wfStr k = true ∧ JVal.wf v = true ∧ JObj.wf t = true ∧ t.hasKey k = false := by
  simp only [JObj.wf, Bool.and_eq_true, Bool.not_eq_true'] at hw
  exact ⟨hw.1.1.1, hw.1.2, hw.2, hw.1.1.2⟩

theorem wfStr_mem {s : List Char} (h : wfStr s = true) :
    ∀ c ∈ s, wfChar c = true := fun c hc =>
  List.all_eq_true.mp (by simpa [wfStr] using h) c hc

theorem parseStr_append {s rest : List Char} (hA : ∀ c ∈ s, wfChar c = true) :
    parseStr (s ++ '"' :: rest) = some (s, rest) := by
  have hsp := takeWhile_append_all (p := wfChar) hA
    (B := '"' :: rest) (by exact (by decide : wfChar '"' = false))
  simp only [parseStr, hsp.1]
  rw [List.drop_left]
  rfl

theorem parseNum_natChars {n : Nat} {c : Char} {cs : List Char} (rest : List Char)
    (hnc : natChars n = c :: cs) (hr : headFails Char.isDigit rest) :
    parseNum c (cs ++ rest) = some (.jnum n, rest) := by
  have hA : ∀ d ∈ c :: cs, d.isDigit = true := fun d hd =>
    natChars_all_digit n d (by rw [hnc]; exact hd)
  have hsp := takeWhile_append_all (p := Char.isDigit) hA (B := rest) hr
  have h1 : (c :: (cs ++ rest)).takeWhile Char.isDigit = c :: cs := by
    simpa using hsp.1
  have hnlz : ¬(1 < (c :: cs).length ∧ c = '0') := by
    rw [← hnc]
    exact natChars_no_leading_zero hnc
  have hdrop : (c :: (cs ++ rest)).drop (c :: cs).length = rest := by
    simp only [List.length_cons, List.drop_succ_cons]
    exact List.drop_left cs rest
  have hval : charsVal (c :: cs) = n := by rw [← hnc, charsVal_natChars]
  simp only [parseNum, h1]
  rw [if_neg hnlz, hval, hdrop]

theorem expectChar_eq {c : Char} {r : List Char} (h : jWs c = false) :
    expectChar c (c :: r) = some r := by
  simp [expectChar, skipWs_not_ws h]

theorem parseJV_step_cons {fuel : Nat} {s0 : List Char} {c : Char} {t : List Char}
    (hskip : skipWs s0 = c :: t) :
    parseJV (fuel + 1) s0 =
      (if c = '"' then (parseStr t).map fun p => (JVal.jstr p.1, p.2)
       else if c = '{' then
         match skipWs t with
         | '}' :: r => some (.jobj .onil, r)
         | _ => (parseJItems fuel .onil t).map fun p => (JVal.jobj p.1, p.2)
       else if c.isDigit then parseNum c t
       else none) := by
  simp only [parseJV, hskip]

theorem parseJItems_step_cons {fuel : Nat} {acc : JObj} {s0 : List Char} {c : Char}
    {t : List Char} (hskip : skipWs s0 = c :: t) :
    parseJItems (fuel + 1) acc s0 =
      (if c = '"' then
        (parseStr t).bind fun kr =>
        (expectChar ':' kr.2).bind fun r2 =>
        (parseJV fuel r2).bind fun vr =>
          match skipWs vr.2 with
          | ',' :: r4 => parseJItems fuel (acc.set kr.1 vr.1) r4
          | '}' :: r4 => some (acc.set kr.1 vr.1, r4)
          | _ => none
       else none) := by
  simp only [parseJItems, hskip]

mutual
theorem parse_dumps_val : ∀ (v : JVal) (rest : List Char) (f : Nat),
    JVal.wf v = true → JVal.pfuel v ≤ f + 1 → headFails Char.isDigit rest →
    parseJV (f + 1) (JVal.dumps v ++ rest) = some (v, rest)
  | .jstr s, rest, f, hw, _, _ => by
    have hA := wfStr_mem (by simpa [JVal.wf] using hw)
    have hshape : JVal.dumps (.jstr s) ++ rest = '"' :: (s ++ '"' :: rest) := by
      simp [JVal.dumps]
    have hskip : skipWs (JVal.dumps (.jstr s) ++ rest) = '"' :: (s ++ '"' :: rest) := by
      rw [hshape]
      exact skipWs_not_ws (by decide)
    rw [parseJV_step_cons hskip, if_pos rfl, parseStr_append hA]
    rfl
  | .jnum n, rest, f, hw, _, hr => by
    cases hnc : natChars n with
    | nil => exact absurd hnc (natChars_ne_nil n)
    | cons c cs =>
      have hcd : c.isDigit = true := natChars_all_digit n c (by rw [hnc]; simp)
      obtain ⟨hws, hq, hb⟩ := isDigit_not_special hcd
      have hshape : JVal.dumps (.jnum n) ++ rest = c :: (cs ++ rest) := by
        simp [JVal.dumps, hnc]
      have hskip : skipWs (JVal.dumps (.jnum n) ++ rest) = c :: (cs ++ rest) := by
        rw [hshape]
        exact skipWs_not_ws hws
      rw [parseJV_step_cons hskip, if_neg hq, if_neg hb, if_pos hcd,
        parseNum_natChars rest hnc hr]
  | .jobj .onil, rest, f, _, _, _ => by
    have hskip : skipWs (JVal.dumps (.jobj .onil) ++ rest) = '{' :: ('}' :: rest) := by
      rw [show JVal.dumps (.jobj .onil) ++ rest = '{' :: ('}' :: rest) by
        simp [JVal.dumps, JObj.dumpsBody]]
      exact skipWs_not_ws (by decide)
    rw [parseJV_step_cons hskip, if_neg (by decide : ¬('{' : Char) = '"'), if_pos rfl,
      skipWs_not_ws (by decide)]
    rfl
  | .jobj (.ocons k v t), rest, f, hw, hf, _ => by
    obtain ⟨f', rfl⟩ : ∃ f', f = f' + 1 := by
      refine ⟨f - 1, ?_⟩
      have h1 : JVal.pfuel (.jobj (.ocons k v t)) =
          1 + (1 + max (JVal.pfuel v) (JObj.pfuel t)) := rfl
      omega
    have hskip : skipWs (JVal.dumps (.jobj (.ocons k v t)) ++ rest) =
        '{' :: (JObj.dumpsBody (.ocons k v t) ++ '}' :: rest) := by
      rw [show JVal.dumps (.jobj (.ocons k v t)) ++ rest =
        '{' :: (JObj.dumpsBody (.ocons k v t) ++ '}' :: rest) by simp [JVal.dumps]]
      exact skipWs_not_ws (by decide)
    rw [parseJV_step_cons hskip, if_neg (by decide : ¬('{' : Char) = '"'), if_pos rfl]
    have hbshape : ∃ bs, JObj.dumpsBody (.ocons k v t) = '"' :: bs := by
      cases t with
      | onil => exact ⟨k ++ ['"', ':', ' '] ++ JVal.dumps v, by simp [JObj.dumpsBody]⟩
      | ocons k' v' t' =>
        exact ⟨k ++ ['"', ':', ' '] ++ JVal.dumps v ++ [',', ' '] ++
          JObj.dumpsBody (.ocons k' v' t'), by simp [JObj.dumpsBody]⟩
    obtain ⟨bs, hbs⟩ := hbshape
    have hskip2 : skipWs (JObj.dumpsBody (.ocons k v t) ++ '}' :: rest) =
        '"' :: (bs ++ '}' :: rest) := by
      rw [hbs, List.cons_append]
      exact skipWs_not_ws (by decide)
    rw [hskip2]
    have hwo : JObj.wf (.ocons k v t) = true := by simpa [JVal.wf] using hw
    have hitems := parse_dumps_items k v t .onil rest f' hwo
      (by
        have h1 : JVal.pfuel (.jobj (.ocons k v t)) =
            1 + JObj.pfuel (.ocons k v t) := rfl
        omega)
    rw [hitems, JObj.update_onil_eq hwo]
    rfl
theorem parse_dumps_items : ∀ (k : List Char) (v : JVal) (t : JObj) (acc : JObj)
    (rest : List Char) (f : Nat),
    JObj.wf (.ocons k v t) = true → JObj.pfuel (.ocons k v t) ≤ f + 1 →
    parseJItems (f + 1) acc (JObj.dumpsBody (.ocons k v t) ++ '}' :: rest) =
      some (JObj.update acc (.ocons k v t), rest)
  | k, v, .onil, acc, rest, f, hw, hf => by
    obtain ⟨hwk, hwv, _, _⟩ := jobj_wf_parts hw
    obtain ⟨f', rfl⟩ : ∃ f', f = f' + 1 := by
      refine ⟨f - 1, ?_⟩
      have h1 := jval_pfuel_pos v
      have h2 : JObj.pfuel (.ocons k v .onil) = 1 + max (JVal.pfuel v) 0 := rfl
      have h3 : max (JVal.pfuel v) 0 = JVal.pfuel v := Nat.max_zero _
      omega
    have hfv : JVal.pfuel v ≤ f' + 1 := by
      have h2 : JObj.pfuel (.ocons k v .onil) = 1 + max (JVal.pfuel v) 0 := rfl
      have h3 : max (JVal.pfuel v) 0 = JVal.pfuel v := Nat.max_zero _
      omega
    have hskip : skipWs (JObj.dumpsBody (.ocons k v .onil) ++ '}' :: rest) =
        '"' :: (k ++ '"' :: ':' :: ' ' :: (JVal.dumps v ++ '}' :: rest)) := by
      rw [show JObj.dumpsBody (.ocons k v .onil) ++ '}' :: rest =
        '"' :: (k ++ '"' :: ':' :: ' ' :: (JVal.dumps v ++ '}' :: rest)) by
          simp [JObj.dumpsBody]]
      exact skipWs_not_ws (by decide)
    rw [parseJItems_step_cons hskip, if_pos rfl, parseStr_append (wfStr_mem hwk)]
    simp only [Option.some_bind]
    rw [expectChar_eq (by decide)]
    simp only [Option.some_bind]
    rw [parseJV_congr_skipWs (skipWs_ws_cons (by decide)),
      parse_dumps_val v ('}' :: rest) f' hwv hfv
        (by exact (by decide : Char.isDigit '}' = false))]
    simp only [Option.some_bind]
    rw [skipWs_not_ws (by decide)]
    rfl
  | k, v, .ocons k' v' t', acc, rest, f, hw, hf => by
    obtain ⟨hwk, hwv, hwt, _⟩ := jobj_wf_parts hw
    obtain ⟨f', rfl⟩ : ∃ f', f = f' + 1 := by
      refine ⟨f - 1, ?_⟩
      have h1 : 1 ≤ JObj.pfuel (.ocons k' v' t') := by simp [JObj.pfuel]
      have h2 : JObj.pfuel (.ocons k v (.ocons k' v' t')) =
          1 + max (JVal.pfuel v) (JObj.pfuel (.ocons k' v' t')) := rfl
      have h3 := Nat.le_max_right (JVal.pfuel v) (JObj.pfuel (.ocons k' v' t'))
      omega
    have hfv : JVal.pfuel v ≤ f' + 1 := by
      have h2 : JObj.pfuel (.ocons k v (.ocons k' v' t')) =
          1 + max (JVal.pfuel v) (JObj.pfuel (.ocons k' v' t')) := rfl
      have h3 := Nat.le_max_left (JVal.pfuel v) (JObj.pfuel (.ocons k' v' t'))
      omega
    have hft : JObj.pfuel (.ocons k' v' t') ≤ f' + 1 := by
      have h2 : JObj.pfuel (.ocons k v (.ocons k' v' t')) =
          1 + max (JVal.pfuel v) (JObj.pfuel (.ocons k' v' t')) := rfl
      have h3 := Nat.le_max_right (JVal.pfuel v) (JObj.pfuel (.ocons k' v' t'))
      omega
    have hskip : skipWs (JObj.dumpsBody (.ocons k v (.ocons k' v' t')) ++ '}' :: rest) =
        '"' :: (k ++ '"' :: ':' :: ' ' ::
          (JVal.dumps v ++ ',' :: ' ' ::
            (JObj.dumpsBody (.ocons k' v' t') ++ '}' :: rest))) := by
      rw [show JObj.dumpsBody (.ocons k v (.ocons k' v' t')) ++ '}' :: rest =
        '"' :: (k ++ '"' :: ':' :: ' ' ::
          (JVal.dumps v ++ ',' :: ' ' ::
            (JObj.dumpsBody (.ocons k' v' t') ++ '}' :: rest))) by
          simp [JObj.dumpsBody]]
      exact skipWs_not_ws (by decide)
    rw [parseJItems_step_cons hskip, if_pos rfl, parseStr_append (wfStr_mem hwk)]
    simp only [Option.some_bind]
    rw [expectChar_eq (by decide)]
    simp only [Option.some_bind]
    rw [parseJV_congr_skipWs (skipWs_ws_cons (by decide)),
      parse_dumps_val v (',' :: ' ' :: (JObj.dumpsBody (.ocons k' v' t') ++ '}' :: rest))
        f' hwv hfv (by exact (by decide : Char.isDigit ',' = false))]
    simp only [Option.some_bind]
    rw [skipWs_not_ws (by decide)]
    show parseJItems (f' + 1) (acc.set k v)
        (' ' :: (JObj.dumpsBody (.ocons k' v' t') ++ '}' :: rest)) = _
    rw [parseJItems_congr_skipWs (skipWs_ws_cons (by decide)),
      parse_dumps_items k' v' t' (acc.set k v) rest f' hwt hft]
    rfl
end


theorem loads_dumps {v : JVal} (hw : JVal.wf v = true) :
    loads (JVal.dumps v) = some v := by
  have h := parse_dumps_val v [] (JVal.dumps v).length hw
    (by have := jval_pfuel_le v; omega) trivial
  rw [List.append_nil] at h
  simp only [loads, h]
  rfl

theorem parseStr_wf {t b r : List Char} (h : parseStr t = some (b, r)) :
    wfStr b = true := by
  simp only [parseStr] at h
  split at h
  · simp only [Option.some.injEq, Prod.mk.injEq] at h
    rw [← h.1]
    simp only [wfStr, List.all_eq_true]
    intro c hc
    exact List.mem_takeWhile_imp hc
  · simp at h

mutual
theorem parseJV_wf : ∀ (fuel : Nat) (s : List Char) (v : JVal) (r : List Char),
    parseJV fuel s = some (v, r) → JVal.wf v = true
  | 0, s, v, r => by
    intro h
    simp [parseJV] at h
  | fuel + 1, s, v, r => by
    intro h
    cases hs : skipWs s with
    | nil => simp [parseJV, hs] at h
    | cons c t =>
      simp only [parseJV, hs] at h
      split at h
      · cases hp : parseStr t with
        | none => rw [hp] at h; simp at h
        | some p =>
          rw [hp] at h
          simp only [Option.map_some', Option.some.injEq, Prod.mk.injEq] at h
          rw [← h.1]
          exact parseStr_wf (b := p.1) (r := p.2) (by rw [hp])
      · split at h
        · split at h
          · simp only [Option.some.injEq, Prod.mk.injEq] at h
            rw [← h.1]
            rfl
          · cases ho : parseJItems fuel .onil t with
            | none => rw [ho] at h; simp at h
            | some p =>
              rw [ho] at h
              simp only [Option.map_some', Option.some.injEq, Prod.mk.injEq] at h
              have hwf := parseJItems_wf fuel .onil t p.1 p.2 rfl (by rw [ho])
              rw [← h.1]
              simpa [JVal.wf] using hwf
        · split at h
          · simp only [parseNum] at h
            split at h
            · simp at h
            · simp only [Option.some.injEq, Prod.mk.injEq] at h
              rw [← h.1]
              rfl
          · simp at h
theorem parseJItems_wf : ∀ (fuel : Nat) (acc : JObj) (s : List Char) (o : JObj)
    (r : List Char), JObj.wf acc = true → parseJItems fuel acc s = some (o, r) →
    JObj.wf o = true
  | 0, acc, s, o, r => by
    intro _ h
    simp [parseJItems] at h
  | fuel + 1, acc, s, o, r => by
    intro hacc h
    cases hs : skipWs s with
    | nil => simp [parseJItems, hs] at h
    | cons c t =>
      simp only [parseJItems, hs] at h
      split at h
      · cases hp : parseStr t with
        | none => rw [hp] at h; simp at h
        | some kr =>
          rw [hp] at h
          simp only [Option.some_bind] at h
          cases he : expectChar ':' kr.2 with
          | none => rw [he] at h; simp at h
          | some r2 =>
            rw [he] at h
            simp only [Option.some_bind] at h
            cases hv : parseJV fuel r2 with
            | none => rw [hv] at h; simp at h
            | some vr =>
              rw [hv] at h
              simp only [Option.some_bind] at h
              have hkwf : wfStr kr.1 = true :=
                parseStr_wf (b := kr.1) (r := kr.2) (by rw [hp])
              have hvwf : JVal.wf vr.1 = true :=
                parseJV_wf fuel r2 vr.1 vr.2 (by rw [hv])
              have hsetwf : (acc.set kr.1 vr.1).wf = true :=
                JObj.set_wf hacc hkwf hvwf
              split at h
              · exact parseJItems_wf fuel (acc.set kr.1 vr.1) _ o r hsetwf h
              · simp only [Option.some.injEq, Prod.mk.injEq] at h
                rw [← h.1]
                exact hsetwf
              · simp at h
      · simp at h
end

theorem loads_wf {s : List Char} {v : JVal} (h : loads s = some v) :
    JVal.wf v = true := by
  simp only [loads] at h
  cases hp : parseJV (s.length + 1) s with
  | none => rw [hp] at h; simp at h
  | some p =>
    obtain ⟨v', r'⟩ := p
    rw [hp] at h
    replace h : (if skipWs r' = [] then some v' else none) = some v := h
    split at h
    · simp only [Option.some.injEq] at h
      rw [← h]
      exact parseJV_wf (s.length + 1) s v' r' hp
    · simp at h

theorem parseJV_obj_of_brace {fuel : Nat} {t : List Char} {v : JVal} {r : List Char}
    (h : parseJV (fuel + 1) ('{' :: t) = some (v, r)) : ∃ o, v = JVal.jobj o := by
  simp only [parseJV, skipWs_not_ws (show jWs '{' = false by decide)] at h
  rw [if_neg (show ¬('{' : Char) = '"' by decide)] at h
  rw [if_pos trivial] at h
  split at h
  · simp only [Option.some.injEq, Prod.mk.injEq] at h
    exact ⟨.onil, h.1.symm⟩
  · cases ho : parseJItems fuel .onil t with
    | none => rw [ho] at h; simp at h
    | some p =>
      rw [ho] at h
      simp only [Option.map_some', Option.some.injEq, Prod.mk.injEq] at h
      exact ⟨p.1, h.1.symm⟩

theorem loads_obj_of_brace {t : List Char} {v : JVal}
    (h : loads ('{' :: t) = some v) : ∃ o, v = JVal.jobj o := by
  simp only [loads] at h
  rw [show ('{' :: t).length + 1 = t.length + 1 + 1 by simp] at h
  cases hp : parseJV (t.length + 1 + 1) ('{' :: t) with
  | none =>
    rw [hp] at h
    simp at h
  | some p =>
    obtain ⟨v', r'⟩ := p
    rw [hp] at h
    replace h : (if skipWs r' = [] then some v' else none) = some v := h
    split at h
    · simp only [Option.some.injEq] at h
      obtain ⟨o, ho⟩ := parseJV_obj_of_brace hp
      exact ⟨o, by rw [← h, ho]⟩
    · simp at h

mutual
/-- Every character of a well-formed serialization differs from a newline
(needed because the status-marker regular expression is line-local). -/
theorem dumps_ne_newline : ∀ (v : JVal), JVal.wf v = true →
    ∀ c ∈ JVal.dumps v, c ≠ '\n'
  | .jstr s, hw => by
    have hA := wfStr_mem (by simpa [JVal.wf] using hw)
    intro c hc he
    subst he
    simp +decide [JVal.dumps, List.mem_cons, List.mem_append,
      List.mem_singleton] at hc
    exact absurd (hA _ hc) (by decide)
  | .jnum n, _ => by
    intro c hc he
    subst he
    simp only [JVal.dumps] at hc
    exact absurd (natChars_all_digit n _ hc) (by decide)
  | .jobj o, hw => by
    intro c hc he
    subst he
    simp +decide [JVal.dumps, List.mem_cons, List.mem_append,
      List.mem_singleton] at hc
    exact dumpsBody_ne_newline o (by simpa [JVal.wf] using hw) _ hc rfl
theorem dumpsBody_ne_newline : ∀ (o : JObj), JObj.wf o = true →
    ∀ c ∈ JObj.dumpsBody o, c ≠ '\n'
  | .onil, _ => by simp [JObj.dumpsBody]
  | .ocons k v .onil, hw => by
    obtain ⟨hwk, hwv, _, _⟩ := jobj_wf_parts hw
    have hA := wfStr_mem hwk
    intro c hc he
    subst he
    simp +decide [JObj.dumpsBody, List.mem_cons, List.mem_append,
      List.mem_singleton] at hc
    rcases hc with hc | hc
    · exact absurd (hA _ hc) (by decide)
    · exact dumps_ne_newline v hwv _ hc rfl
  | .ocons k v (.ocons k' v' t'), hw => by
    obtain ⟨hwk, hwv, hwt, _⟩ := jobj_wf_parts hw
    have hA := wfStr_mem hwk
    intro c hc he
    subst he
    simp +decide [JObj.dumpsBody, List.mem_cons, List.mem_append,
      List.mem_singleton] at hc
    rcases hc with hc | hc | hc
    · exact absurd (hA _ hc) (by decide)
    · exact dumps_ne_newline v hwv _ hc rfl
    · exact dumpsBody_ne_newline (.ocons k' v' t') hwt _ hc rfl
end

theorem dumps_not_mem_newline {v : JVal} (hw : JVal.wf v = true) :
    '\n' ∉ JVal.dumps v := fun hmem => dumps_ne_newline v hw _ hmem rfl

/-! ## The status-marker pattern

`update_migration_status` locates the marker with the regular expression
`// MIGRATION STATUS: (\{.*\})` (no DOTALL, greedy).  A match therefore
starts at an occurrence of the literal `// MIGRATION STATUS: ` followed by
`{`, and its group extends to the last `}` on the same line.  `re.search`
takes the leftmost match; `re.sub` rewrites every non-overlapping match,
scanning left to right. -/

def notNl (c : Char) : Bool := if c = '\n' then false else true

/-- The literal prefix of the marker pattern (21 characters). -/
def mLit : List Char := "// MIGRATION STATUS: ".toList

/-- Try to match the marker pattern at the head of `s`; on success return
the matched group `(\{.*\})` and the remainder of `s` after the match. -/
def markerHeadMatch (s : List Char) : Option (List Char × List Char) :=
  if pfx (mLit ++ ['{']) s then
    let u := s.drop 22
    let line := u.takeWhile notNl
    match lastIdxOf '}' line with
    | some k => some ('{' :: line.take (k + 1), u.drop (k + 1))
    | none => none
  else none

theorem markerHeadMatch_rest_lt {s p r : List Char}
    (h : markerHeadMatch s = some (p, r)) : r.length < s.length := by
  simp only [markerHeadMatch] at h
  split at h
  · rename_i hp
    have hlen : 22 ≤ s.length := by
      have := pfx_length hp
      simpa [mLit] using this
    split at h
    · rename_i k hk
      simp only [Option.some.injEq, Prod.mk.injEq] at h
      have hr : r = (s.drop 22).drop (k + 1) := h.2.symm
      have hr2 : r.length = s.length - 22 - (k + 1) := by
        rw [hr]
        simp
        omega
      omega
    · simp at h
  · simp at h

/-- `re.search` for the marker pattern: the leftmost match, returned as
`(text before the match, matched group, text after the match)`. -/
def findMarker : List Char → Option (List Char × List Char × List Char)
  | [] => none
  | s@(c :: t) =>
    match markerHeadMatch s with
    | some pr => some ([], pr.1, pr.2)
    | none => (findMarker t).map fun x => (c :: x.1, x.2.1, x.2.2)

/-- Fuelled scan for `re.sub` on the marker pattern; the fuel dominates the
length of the scanned text, so the `0` case is never reached from
`subMarkers`. -/
def subMarkersF (repl : List Char) : Nat → List Char → List Char
  | 0, _ => []
  | fuel + 1, s =>
    match markerHeadMatch s with
    | some pr => repl ++ subMarkersF repl fuel pr.2
    | none =>
      match s with
      | [] => []
      | c :: t => c :: subMarkersF repl fuel t

/-- `re.sub` for the marker pattern: replace every non-overlapping match
with `repl`, scanning left to right and never rescanning the replacement. -/
def subMarkers (repl : List Char) (s : List Char) : List Char :=
  subMarkersF repl s.length s

/-- Fuelled scan counting matches of the marker pattern. -/
def countMarkersF : Nat → List Char → Nat
  | 0, _ => 0
  | fuel + 1, s =>
    match markerHeadMatch s with
    | some pr => 1 + countMarkersF fuel pr.2
    | none =>
      match s with
      | [] => 0
      | _ :: t => countMarkersF fuel t

/-- Number of non-overlapping matches of the marker pattern (each sits on
one line, so this is also the number of marker lines). -/
def countMarkers (s : List Char) : Nat :=
  countMarkersF s.length s


/-! ## `update_migration_status` (`ValidationOperations.update_migration_status`) -/

def eslintKey : List Char := "eslint".toList
def tscKey : List Char := "tsc".toList
def buildKey : List Char := "build".toList
def pendingVal : List Char := "pending".toList

/-- The fresh payload built when no marker exists: `eslint` and `tsc`
default to `"pending"` unless the update provides them (Python dict
insertion order). -/
def newStatusBase (u : JObj) : JObj :=
  let s2 : JObj :=
    if u.hasKey tscKey then .onil else .ocons tscKey (.jstr pendingVal) .onil
  if u.hasKey eslintKey then s2 else .ocons eslintKey (.jstr pendingVal) s2

/-- The payload parsed from an existing marker; a payload that fails to
parse (or is not an object) falls back to the empty mapping. -/
def parsedPayload (payload : List Char) : JObj :=
  match loads payload with
  | some (JVal.jobj l) => l
  | _ => .onil

/-- `ValidationOperations.update_migration_status` (`validation.py` 27-100):
merge `status_updates` into an existing marker (located and rewritten with
`re.search`/`re.sub`), or synthesize a fresh marker and insert it after a
leading comment block, else at the top of the file. -/
def update_migration_status (code : List Char) (status_updates : JObj) : List Char :=
  match findMarker code with
  | some pr =>
    let merged := JObj.update (parsedPayload pr.2.1) status_updates
    subMarkers (mLit ++ JVal.dumps (.jobj merged)) code
  | none =>
    let merged := JObj.update (newStatusBase status_updates) status_updates
    let comment := mLit ++ JVal.dumps (.jobj merged)
    if pfx ("/*".toList) (pyStrip code) || pfx ("//".toList) (pyStrip code) then
      let ce : Int :=
        if pfx ("/*".toList) (pyStrip code) then pyFind ("*/".toList) code + 2
        else pyFind ['\n'] code
      if 0 < ce then
        code.take ce.toNat ++ '\n' :: (comment ++ '\n' :: code.drop ce.toNat)
      else comment ++ '\n' :: code
    else comment ++ '\n' :: code

/-! ### Lemmas about the marker scan -/

theorem headFails_dropWhile (p : Char → Bool) (l : List Char) :
    headFails p (l.dropWhile p) := by
  induction l with
  | nil => trivial
  | cons c t ih =>
    rw [List.dropWhile_cons]
    split
    · exact ih
    · rename_i h
      simpa [headFails] using (Bool.not_eq_true _).mp h

theorem mem_takeWhile_append {p : Char → Bool} {c : Char} {A z : List Char}
    (h : c ∈ A.takeWhile p) : c ∈ (A ++ z).takeWhile p := by
  induction A with
  | nil => simp at h
  | cons a t ih =>
    rw [List.cons_append, List.takeWhile_cons] at *
    by_cases hp : p a = true
    · rw [if_pos hp] at h
      rw [if_pos hp]
      rw [List.mem_cons] at *
      rcases h with h | h
      · exact Or.inl h
      · exact Or.inr (ih h)
    · rw [if_neg hp] at h
      simp at h

theorem takeWhile_stop {p : Char → Bool} {A : List Char} (z : List Char)
    {d : Char} (hd : d ∈ A) (hdp : p d = false) :
    (A ++ z).takeWhile p = A.takeWhile p := by
  induction A with
  | nil => simp at hd
  | cons a t ih =>
    rw [List.cons_append, List.takeWhile_cons, List.takeWhile_cons]
    rw [List.mem_cons] at hd
    split
    · rename_i hp
      rcases hd with hd | hd
      · subst hd
        rw [hp] at hdp
        simp at hdp
      · rw [ih hd]
    · rfl

theorem brace_in_line_append {d y : List Char} (hd : '\n' ∉ d)
    (hy : '}' ∈ y.takeWhile notNl) : '}' ∈ (d ++ y).takeWhile notNl := by
  induction d with
  | nil => simpa using hy
  | cons a t ih =>
    rw [List.cons_append, List.takeWhile_cons]
    have ha : notNl a = true := by
      simp only [notNl]
      split
      · rename_i he
        subst he
        simp at hd
      · rfl
    rw [ha]
    simp only [if_true, List.mem_cons]
    exact Or.inr (ih (fun hm => hd (List.mem_cons_of_mem _ hm)))

theorem mhm_none_intro1 {s : List Char} (h : pfx (mLit ++ ['{']) s = false) :
    markerHeadMatch s = none := by
  simp [markerHeadMatch, h]

theorem mhm_none_intro2 {s : List Char}
    (h : '}' ∉ (s.drop 22).takeWhile notNl) : markerHeadMatch s = none := by
  simp only [markerHeadMatch]
  split
  · rw [lastIdxOf_eq_none_iff.mpr h]
  · rfl

theorem mhm_none_cases {s : List Char} (h : markerHeadMatch s = none) :
    pfx (mLit ++ ['{']) s = false ∨ '}' ∉ (s.drop 22).takeWhile notNl := by
  by_cases hp : pfx (mLit ++ ['{']) s = true
  · right
    simp only [markerHeadMatch, hp, if_true] at h
    split at h
    · simp at h
    · rename_i hk
      exact lastIdxOf_eq_none_iff.mp hk
  · exact Or.inl ((Bool.not_eq_true _).mp hp)

theorem mhm_isSome_intro {s : List Char} (hp : pfx (mLit ++ ['{']) s = true)
    (hb : '}' ∈ (s.drop 22).takeWhile notNl) :
    (markerHeadMatch s).isSome = true := by
  simp only [markerHeadMatch, hp, if_true]
  cases hk : lastIdxOf '}' ((s.drop 22).takeWhile notNl) with
  | some k => rfl
  | none => exact absurd (lastIdxOf_eq_none_iff.mp hk) (by simp [hb])

theorem mhm_isSome_elim {s : List Char} (h : (markerHeadMatch s).isSome = true) :
    pfx (mLit ++ ['{']) s = true ∧ '}' ∈ (s.drop 22).takeWhile notNl := by
  constructor
  · by_contra hp
    rw [mhm_none_intro1 ((Bool.not_eq_true _).mp hp)] at h
    simp at h
  · by_contra hb
    rw [mhm_none_intro2 hb] at h
    simp at h

theorem mhm_isSome_mono {w z : List Char}
    (h : (markerHeadMatch w).isSome = true) :
    (markerHeadMatch (w ++ z)).isSome = true := by
  obtain ⟨hp, hb⟩ := mhm_isSome_elim h
  have hlen : 22 ≤ w.length := by
    have := pfx_length hp
    simpa [mLit] using this
  have hp2 : pfx (mLit ++ ['{']) (w ++ z) = true := pfx_append_right z hp
  have hdrop : (w ++ z).drop 22 = w.drop 22 ++ z := by
    rw [List.drop_append_eq_append_drop]
    congr 1
    rw [show 22 - w.length = 0 by omega]
    rfl
  refine mhm_isSome_intro hp2 ?_
  rw [hdrop]
  exact mem_takeWhile_append hb

theorem take_len_succ {A : List Char} (c : Char) (B : List Char) :
    (A ++ c :: B).take (A.length + 1) = A ++ [c] := by
  induction A with
  | nil => rfl
  | cons a t ih =>
    rw [List.cons_append, List.length_cons]
    rw [show t.length + 1 + 1 = (t.length + 1) + 1 from rfl]
    rw [List.take_succ_cons, ih, List.cons_append]

theorem drop_len_succ {A : List Char} (c : Char) (B : List Char) :
    (A ++ c :: B).drop (A.length + 1) = B := by
  induction A with
  | nil => rfl
  | cons a t ih =>
    rw [List.cons_append, List.length_cons]
    rw [show t.length + 1 + 1 = (t.length + 1) + 1 from rfl]
    rw [List.drop_succ_cons, ih]

theorem takeWhile_append_tr {p : Char → Bool} {A : List Char} (B : List Char)
    (hA : ∀ c ∈ A, p c = true) :
    (A ++ B).takeWhile p = A ++ B.takeWhile p := by
  induction A with
  | nil => rfl
  | cons a t ih =>
    rw [List.cons_append, List.takeWhile_cons, if_pos (hA a (List.mem_cons_self a t))]
    rw [ih (fun c hc => hA c (List.mem_cons_of_mem a hc)), List.cons_append]

theorem mLit_brace_len : (mLit ++ ['{']).length = 22 := by rfl

/-- Full structural description of a successful head match: the group is
`'{' :: xs ++ ['}']` with `xs` newline-free, the input splits as
`mLit ++ group ++ rest`, and the rest of the matched line holds no `'}'`. -/
theorem mhm_some_spec {s p r : List Char}
    (h : markerHeadMatch s = some (p, r)) :
    ∃ xs, p = '{' :: xs ++ ['}'] ∧ (∀ c ∈ xs, notNl c = true) ∧
      s = mLit ++ p ++ r ∧ '}' ∉ r.takeWhile notNl := by
  simp only [markerHeadMatch] at h
  split at h
  · rename_i hp
    split at h
    · rename_i k hk
      rw [Option.some.injEq, Prod.mk.injEq] at h
      obtain ⟨hpe, hre⟩ := h
      obtain ⟨xs, ys, hline, hxs_len, hys⟩ := lastIdxOf_decomp hk
      have hxs_nl : ∀ c ∈ xs, notNl c = true := by
        intro c hc
        refine List.mem_takeWhile_imp (p := notNl) (l := s.drop 22) ?_
        rw [hline]
        exact List.mem_append_left _ hc
      have hys_nl : ∀ c ∈ ys, notNl c = true := by
        intro c hc
        refine List.mem_takeWhile_imp (p := notNl) (l := s.drop 22) ?_
        rw [hline]
        exact List.mem_append_right _ (List.mem_cons_of_mem _ hc)
      have hu : s.drop 22 = xs ++ '}' :: (ys ++ (s.drop 22).dropWhile notNl) := by
        conv_lhs => rw [← List.takeWhile_append_dropWhile (p := notNl) (l := s.drop 22)]
        rw [hline]
        simp [List.append_assoc]
      have hr2 : r = ys ++ (s.drop 22).dropWhile notNl := by
        rw [← hre]
        conv_lhs => rw [hu]
        rw [← hxs_len, drop_len_succ]
      refine ⟨xs, ?_, hxs_nl, ?_, ?_⟩
      · rw [← hpe, hline, ← hxs_len, take_len_succ, List.cons_append]
      · have hs : s = (mLit ++ ['{']) ++ s.drop 22 := by
          have := pfx_eq_append hp
          rwa [mLit_brace_len] at this
        conv_lhs => rw [hs, hu]
        rw [← hpe, hline, ← hxs_len, take_len_succ, hr2]
        simp [List.append_assoc]
      · rw [hr2, (takeWhile_append_all hys_nl (headFails_dropWhile _ _)).1]
        exact hys
    · simp at h
  · simp at h

/-- Constructor form: a marker head with newline-free payload `inner` followed
by a rest whose first line has no `'}'` matches exactly the payload. -/
theorem mhm_construct {inner z : List Char} (hin : ∀ c ∈ inner, notNl c = true)
    (hz : '}' ∉ z.takeWhile notNl) :
    markerHeadMatch (mLit ++ '{' :: inner ++ '}' :: z) =
      some ('{' :: inner ++ ['}'], z) := by
  have hs : mLit ++ '{' :: inner ++ '}' :: z
      = (mLit ++ ['{']) ++ (inner ++ '}' :: z) := by
    simp
  have hp : pfx (mLit ++ ['{']) (mLit ++ '{' :: inner ++ '}' :: z) = true := by
    rw [hs]
    exact pfx_refl_append _ _
  have hdrop : (mLit ++ '{' :: inner ++ '}' :: z).drop 22 = inner ++ '}' :: z := by
    rw [hs, ← mLit_brace_len, List.drop_left]
  have hline : (inner ++ '}' :: z).takeWhile notNl
      = inner ++ '}' :: z.takeWhile notNl := by
    rw [takeWhile_append_tr _ hin, List.takeWhile_cons]
    rw [if_pos (show notNl '}' = true from rfl)]
  simp only [markerHeadMatch, hp, if_true, hdrop, hline]
  rw [lastIdxOf_append_cons hz]
  show some ('{' :: List.take (inner.length + 1) (inner ++ '}' :: List.takeWhile notNl z),
      List.drop (inner.length + 1) (inner ++ '}' :: z)) = some ('{' :: inner ++ ['}'], z)
  rw [take_len_succ, drop_len_succ, List.cons_append]

theorem mhm_nil : markerHeadMatch [] = none := by
  have hp : pfx (mLit ++ ['{']) [] = false := by decide
  exact mhm_none_intro1 hp

theorem countMarkers_nil : countMarkers [] = 0 := rfl

theorem subMarkers_nil (repl : List Char) : subMarkers repl [] = [] := rfl

theorem subMarkersF_congr (repl : List Char) :
    ∀ (n f1 f2 : Nat) (s : List Char), s.length ≤ f1 → s.length ≤ f2 →
      s.length ≤ n → subMarkersF repl f1 s = subMarkersF repl f2 s := by
  intro n
  induction n with
  | zero =>
    intro f1 f2 s h1 h2 hn
    have hs : s = [] := List.eq_nil_of_length_eq_zero (by omega)
    subst hs
    cases f1 <;> cases f2 <;> simp [subMarkersF, mhm_nil]
  | succ n ih =>
    intro f1 f2 s h1 h2 hn
    cases s with
    | nil => cases f1 <;> cases f2 <;> simp [subMarkersF, mhm_nil]
    | cons c t =>
      rw [List.length_cons] at h1 h2 hn
      cases f1 with
      | zero => omega
      | succ g =>
        cases f2 with
        | zero => omega
        | succ g' =>
          simp only [subMarkersF]
          cases hm : markerHeadMatch (c :: t) with
          | some pr =>
            simp only [hm]
            have hlt := markerHeadMatch_rest_lt hm
            rw [List.length_cons] at hlt
            congr 1
            exact ih g g' pr.2 (by omega) (by omega) (by omega)
          | none =>
            simp only [hm]
            congr 1
            exact ih g g' t (by omega) (by omega) (by omega)

theorem countMarkersF_congr :
    ∀ (n f1 f2 : Nat) (s : List Char), s.length ≤ f1 → s.length ≤ f2 →
      s.length ≤ n → countMarkersF f1 s = countMarkersF f2 s := by
  intro n
  induction n with
  | zero =>
    intro f1 f2 s h1 h2 hn
    have hs : s = [] := List.eq_nil_of_length_eq_zero (by omega)
    subst hs
    cases f1 <;> cases f2 <;> simp [countMarkersF, mhm_nil]
  | succ n ih =>
    intro f1 f2 s h1 h2 hn
    cases s with
    | nil => cases f1 <;> cases f2 <;> simp [countMarkersF, mhm_nil]
    | cons c t =>
      rw [List.length_cons] at h1 h2 hn
      cases f1 with
      | zero => omega
      | succ g =>
        cases f2 with
        | zero => omega
        | succ g' =>
          simp only [countMarkersF]
          cases hm : markerHeadMatch (c :: t) with
          | some pr =>
            simp only [hm]
            have hlt := markerHeadMatch_rest_lt hm
            rw [List.length_cons] at hlt
            congr 1
            exact ih g g' pr.2 (by omega) (by omega) (by omega)
          | none =>
            simp only [hm]
            exact ih g g' t (by omega) (by omega) (by omega)

theorem countMarkers_some {s : List Char} {pr : List Char × List Char}
    (h : markerHeadMatch s = some pr) : countMarkers s = 1 + countMarkers pr.2 := by
  cases s with
  | nil => rw [mhm_nil] at h; simp at h
  | cons c t =>
    show countMarkersF (c :: t).length (c :: t) = 1 + countMarkersF pr.2.length pr.2
    have hlt := markerHeadMatch_rest_lt h
    rw [List.length_cons]
    simp only [countMarkersF, h]
    congr 1
    exact countMarkersF_congr pr.2.length t.length pr.2.length pr.2
      (by rw [List.length_cons] at hlt; omega) (le_refl _) (le_refl _)

theorem countMarkers_cons_none {c : Char} {t : List Char}
    (h : markerHeadMatch (c :: t) = none) : countMarkers (c :: t) = countMarkers t := by
  show countMarkersF (c :: t).length (c :: t) = countMarkersF t.length t
  rw [List.length_cons]
  simp only [countMarkersF, h]

theorem subMarkers_some (repl : List Char) {s : List Char} {pr : List Char × List Char}
    (h : markerHeadMatch s = some pr) :
    subMarkers repl s = repl ++ subMarkers repl pr.2 := by
  cases s with
  | nil => rw [mhm_nil] at h; simp at h
  | cons c t =>
    show subMarkersF repl (c :: t).length (c :: t) = repl ++ subMarkersF repl pr.2.length pr.2
    have hlt := markerHeadMatch_rest_lt h
    rw [List.length_cons]
    simp only [subMarkersF, h]
    congr 1
    exact subMarkersF_congr repl pr.2.length t.length pr.2.length pr.2
      (by rw [List.length_cons] at hlt; omega) (le_refl _) (le_refl _)

theorem subMarkers_cons_none (repl : List Char) {c : Char} {t : List Char}
    (h : markerHeadMatch (c :: t) = none) :
    subMarkers repl (c :: t) = c :: subMarkers repl t := by
  show subMarkersF repl (c :: t).length (c :: t) = c :: subMarkersF repl t.length t
  rw [List.length_cons]
  simp only [subMarkersF, h]

theorem findMarker_cons_some {c : Char} {t : List Char} {pr : List Char × List Char}
    (h : markerHeadMatch (c :: t) = some pr) :
    findMarker (c :: t) = some ([], pr.1, pr.2) := by
  rw [findMarker, h]

theorem findMarker_cons_none {c : Char} {t : List Char}
    (h : markerHeadMatch (c :: t) = none) :
    findMarker (c :: t) = (findMarker t).map fun x => (c :: x.1, x.2.1, x.2.2) := by
  rw [findMarker, h]

/-- When the scan finds no marker, the count is zero, substitution is the
identity, and no position of the input matches the pattern. -/
theorem findMarker_none_spec {s : List Char} (h : findMarker s = none) :
    countMarkers s = 0 ∧ (∀ repl, subMarkers repl s = s) ∧
      ∀ i, markerHeadMatch (s.drop i) = none := by
  induction s with
  | nil =>
    refine ⟨countMarkers_nil, fun repl => subMarkers_nil repl, fun i => ?_⟩
    rw [List.drop_nil]
    exact mhm_nil
  | cons c t ih =>
    have hm : markerHeadMatch (c :: t) = none := by
      cases hm : markerHeadMatch (c :: t) with
      | none => rfl
      | some pr => rw [findMarker_cons_some hm] at h; simp at h
    rw [findMarker_cons_none hm, Option.map_eq_none'] at h
    obtain ⟨hc, hs, hd⟩ := ih h
    refine ⟨?_, fun repl => ?_, fun i => ?_⟩
    · rw [countMarkers_cons_none hm, hc]
    · rw [subMarkers_cons_none repl hm, hs repl]
    · cases i with
      | zero => exact hm
      | succ j => rw [List.drop_succ_cons]; exact hd j

theorem findMarker_none_of_count {s : List Char} (h : countMarkers s = 0) :
    findMarker s = none := by
  induction s with
  | nil => rfl
  | cons c t ih =>
    cases hm : markerHeadMatch (c :: t) with
    | some pr =>
      rw [countMarkers_some hm] at h
      omega
    | none =>
      rw [countMarkers_cons_none hm] at h
      rw [findMarker_cons_none hm, ih h]
      rfl

/-- Full structural description of a successful scan: the match occurs at
offset `pre.length`, the input splits around the matched text, and no earlier
position matches. -/
theorem findMarker_some_spec {s pre p rest : List Char}
    (h : findMarker s = some (pre, p, rest)) :
    markerHeadMatch (s.drop pre.length) = some (p, rest) ∧
      s = pre ++ mLit ++ p ++ rest ∧
      ∀ i < pre.length, markerHeadMatch (s.drop i) = none := by
  induction s generalizing pre with
  | nil => simp [findMarker] at h
  | cons c t ih =>
    cases hm : markerHeadMatch (c :: t) with
    | some pr =>
      rw [findMarker_cons_some hm, Option.some.injEq, Prod.mk.injEq, Prod.mk.injEq] at h
      obtain ⟨h1, h2, h3⟩ := h
      subst h1 h2 h3
      obtain ⟨xs, _, _, hdec, _⟩ := mhm_some_spec hm
      refine ⟨?_, by simpa [List.append_assoc] using hdec, fun i hi => absurd hi (by simp)⟩
      rw [List.length_nil, List.drop_zero, hm]
    | none =>
      rw [findMarker_cons_none hm, Option.map_eq_some'] at h
      obtain ⟨x, hx, hxe⟩ := h
      obtain ⟨x1, x2, x3⟩ := x
      dsimp only at hxe hx
      rw [Prod.mk.injEq, Prod.mk.injEq] at hxe
      obtain ⟨h1, h2, h3⟩ := hxe
      subst h1 h2 h3
      obtain ⟨hmt, hdec, hnone⟩ := ih hx
      refine ⟨?_, ?_, fun i hi => ?_⟩
      · rw [List.length_cons, List.drop_succ_cons]
        exact hmt
      · rw [hdec]
        simp [List.append_assoc]
      · cases i with
        | zero => exact hm
        | succ j =>
          rw [List.drop_succ_cons]
          exact hnone j (by simpa using Nat.lt_of_succ_lt_succ hi)

theorem subMarkers_of_findMarker (repl : List Char) {s pre p rest : List Char}
    (h : findMarker s = some (pre, p, rest)) :
    subMarkers repl s = pre ++ repl ++ subMarkers repl rest := by
  induction s generalizing pre with
  | nil => simp [findMarker] at h
  | cons c t ih =>
    cases hm : markerHeadMatch (c :: t) with
    | some pr =>
      rw [findMarker_cons_some hm, Option.some.injEq, Prod.mk.injEq, Prod.mk.injEq] at h
      obtain ⟨h1, h2, h3⟩ := h
      subst h1 h2 h3
      rw [subMarkers_some repl hm]
      rfl
    | none =>
      rw [findMarker_cons_none hm, Option.map_eq_some'] at h
      obtain ⟨x, hx, hxe⟩ := h
      obtain ⟨x1, x2, x3⟩ := x
      dsimp only at hxe hx
      rw [Prod.mk.injEq, Prod.mk.injEq] at hxe
      obtain ⟨h1, h2, h3⟩ := hxe
      subst h1 h2 h3
      rw [subMarkers_cons_none repl hm, ih hx]
      rfl

theorem countMarkers_of_findMarker {s pre p rest : List Char}
    (h : findMarker s = some (pre, p, rest)) :
    countMarkers s = 1 + countMarkers rest := by
  induction s generalizing pre with
  | nil => simp [findMarker] at h
  | cons c t ih =>
    cases hm : markerHeadMatch (c :: t) with
    | some pr =>
      rw [findMarker_cons_some hm, Option.some.injEq, Prod.mk.injEq, Prod.mk.injEq] at h
      obtain ⟨h1, h2, h3⟩ := h
      subst h1 h2 h3
      rw [countMarkers_some hm]
    | none =>
      rw [findMarker_cons_none hm, Option.map_eq_some'] at h
      obtain ⟨x, hx, hxe⟩ := h
      obtain ⟨x1, x2, x3⟩ := x
      dsimp only at hxe hx
      rw [Prod.mk.injEq, Prod.mk.injEq] at hxe
      obtain ⟨h1, h2, h3⟩ := hxe
      subst h1 h2 h3
      rw [countMarkers_cons_none hm]
      exact ih hx

theorem subMarkers_pass (repl : List Char) {a b : List Char}
    (h : ∀ i < a.length, markerHeadMatch ((a ++ b).drop i) = none) :
    subMarkers repl (a ++ b) = a ++ subMarkers repl b := by
  induction a with
  | nil => rfl
  | cons c t ih =>
    have h0 : markerHeadMatch (c :: (t ++ b)) = none := by
      have := h 0 (by simp)
      simpa using this
    rw [List.cons_append, subMarkers_cons_none repl h0]
    rw [ih (fun i hi => by simpa [List.cons_append] using h (i + 1) (by simpa using Nat.succ_lt_succ hi))]
    rfl

theorem countMarkers_pass {a b : List Char}
    (h : ∀ i < a.length, markerHeadMatch ((a ++ b).drop i) = none) :
    countMarkers (a ++ b) = countMarkers b := by
  induction a with
  | nil => rfl
  | cons c t ih =>
    have h0 : markerHeadMatch (c :: (t ++ b)) = none := by
      have := h 0 (by simp)
      simpa using this
    rw [List.cons_append, countMarkers_cons_none h0]
    exact ih (fun i hi => by simpa [List.cons_append] using h (i + 1) (by simpa using Nat.succ_lt_succ hi))

theorem findMarker_pass {a b : List Char}
    (h : ∀ i < a.length, markerHeadMatch ((a ++ b).drop i) = none) :
    findMarker (a ++ b) = (findMarker b).map fun x => (a ++ x.1, x.2.1, x.2.2) := by
  induction a with
  | nil =>
    rw [List.nil_append]
    cases hb : findMarker b with
    | none => rfl
    | some x => simp
  | cons c t ih =>
    have h0 : markerHeadMatch (c :: (t ++ b)) = none := by
      have := h 0 (by simp)
      simpa using this
    rw [List.cons_append, findMarker_cons_none h0]
    rw [ih (fun i hi => by simpa [List.cons_append] using h (i + 1) (by simpa using Nat.succ_lt_succ hi))]
    cases hb : findMarker b with
    | none => rfl
    | some x => simp

theorem pfx_head_ne {a b : Char} {as bs : List Char} (h : ¬ a = b) :
    pfx (a :: as) (b :: bs) = false := by
  simp [pfx, h]

theorem notNl_eq_false {c : Char} (h : notNl c = false) : c = '\n' := by
  by_contra hc
  simp [notNl, hc] at h

theorem mhm_cons_ne {c : Char} (t : List Char) (hc : ¬ c = '/') :
    markerHeadMatch (c :: t) = none := by
  apply mhm_none_intro1
  have he : mLit ++ ['{'] = '/' :: ("/ MIGRATION STATUS: ".toList ++ ['{']) := by rfl
  rw [he]
  exact pfx_head_ne (fun h => hc h.symm)

theorem takeWhile_append_nlcons (A z : List Char) :
    (A ++ '\n' :: z).takeWhile notNl = A.takeWhile notNl := by
  induction A with
  | nil =>
    rw [List.nil_append, List.takeWhile_cons, if_neg (by simp [notNl]), List.takeWhile_nil]
  | cons a t ih =>
    rw [List.cons_append, List.takeWhile_cons, List.takeWhile_cons]
    by_cases ha : notNl a = true
    · rw [if_pos ha, if_pos ha, ih]
    · rw [if_neg ha, if_neg ha]

/-- No position strictly inside a newline-free, brace-free segment `a`
(followed by a line break or end of input) can start a marker match. -/
theorem mhm_none_braceless {a b : List Char} (ha_nl : '\n' ∉ a) (ha_br : '}' ∉ a)
    (hb : headFails notNl b) :
    ∀ i, i < a.length → markerHeadMatch ((a ++ b).drop i) = none := by
  intro i hi
  have hx : (a ++ b).drop i = a.drop i ++ b := by
    rw [List.drop_append_eq_append_drop, show i - a.length = 0 by omega, List.drop_zero]
  rw [hx]
  by_cases hcase : 22 ≤ a.length - i
  · apply mhm_none_intro2
    have hd : (a.drop i ++ b).drop 22 = a.drop (i + 22) ++ b := by
      rw [List.drop_append_eq_append_drop]
      rw [show 22 - (a.drop i).length = 0 by simp; omega]
      rw [List.drop_zero, List.drop_drop]
    rw [hd]
    have hall : ∀ c ∈ a.drop (i + 22), notNl c = true := by
      intro c hc
      cases hcn : notNl c with
      | true => rfl
      | false =>
        exact absurd (notNl_eq_false hcn ▸ List.mem_of_mem_drop hc) ha_nl
    rw [(takeWhile_append_all hall hb).1]
    intro hmem
    exact ha_br (List.mem_of_mem_drop hmem)
  · apply mhm_none_intro1
    cases b with
    | nil =>
      rw [List.append_nil]
      cases hp : pfx (mLit ++ ['{']) (a.drop i) with
      | false => rfl
      | true =>
        have hl := pfx_length hp
        rw [mLit_brace_len, List.length_drop] at hl
        omega
    | cons c bt =>
      have hc : c = '\n' := notNl_eq_false hb
      subst hc
      cases hp : pfx (mLit ++ ['{']) (a.drop i ++ '\n' :: bt) with
      | false => rfl
      | true =>
        have htake := pfx_iff_take.mp hp
        rw [mLit_brace_len] at htake
        have hmem : '\n' ∈ (a.drop i ++ '\n' :: bt).take 22 := by
          rw [List.take_append_eq_append_take]
          refine List.mem_append_right _ ?_
          cases hn : 22 - (a.drop i).length with
          | zero =>
            rw [List.length_drop] at hn
            exact absurd hn (by omega)
          | succ m =>
            rw [List.take_succ_cons]
            exact List.mem_cons_self _ _
        rw [htake] at hmem
        exact absurd hmem (by decide)

/-- Failure to match just before a marker head transfers to any other
payload continuation: the only part of the continuation a no-match
condition can depend on is its first line, and both continuations carry a
`'}'` there. -/
theorem mhm_none_transfer {c y : List Char} (hy : '}' ∈ y.takeWhile notNl)
    (y' : List Char) (h : markerHeadMatch ((c ++ mLit ++ ['{']) ++ y) = none) :
    markerHeadMatch ((c ++ mLit ++ ['{']) ++ y') = none := by
  have hwlen : 22 ≤ (c ++ mLit ++ ['{']).length := by
    simp [mLit]
  have htake : ∀ z : List Char,
      ((c ++ mLit ++ ['{']) ++ z).take 22 = (c ++ mLit ++ ['{']).take 22 := by
    intro z
    rw [List.take_append_eq_append_take,
      show 22 - (c ++ mLit ++ ['{']).length = 0 by omega]
    simp
  have hdrop : ∀ z : List Char,
      ((c ++ mLit ++ ['{']) ++ z).drop 22 = (c ++ mLit ++ ['{']).drop 22 ++ z := by
    intro z
    rw [List.drop_append_eq_append_drop,
      show 22 - (c ++ mLit ++ ['{']).length = 0 by omega]
    simp
  rcases mhm_none_cases h with hc1 | hc2
  · apply mhm_none_intro1
    rw [pfx_take_congr ((htake y').trans (htake y).symm) (le_of_eq mLit_brace_len)]
    exact hc1
  · by_cases hnl : '\n' ∈ (c ++ mLit ++ ['{']).drop 22
    · apply mhm_none_intro2
      rw [hdrop y', takeWhile_stop _ hnl rfl]
      rw [hdrop y, takeWhile_stop _ hnl rfl] at hc2
      exact hc2
    · exfalso
      apply hc2
      rw [hdrop y]
      exact brace_in_line_append hnl hy

/-- A marker match starting inside `w ++ '\n' :: z` at position 0 is wholly
determined by `w`: it persists under any replacement of the tail. -/
theorem mhm_confined {w z : List Char} (z' : List Char)
    (h : (markerHeadMatch (w ++ '\n' :: z)).isSome = true) :
    (markerHeadMatch (w ++ z')).isSome = true := by
  obtain ⟨hp, hb⟩ := mhm_isSome_elim h
  have hwlen : 22 ≤ w.length := by
    by_contra hlt
    push_neg at hlt
    have htake := pfx_iff_take.mp hp
    rw [mLit_brace_len] at htake
    have hmem : '\n' ∈ (w ++ '\n' :: z).take 22 := by
      rw [List.take_append_eq_append_take]
      refine List.mem_append_right _ ?_
      cases hn : 22 - w.length with
      | zero => exact absurd hn (by omega)
      | succ m =>
        rw [List.take_succ_cons]
        exact List.mem_cons_self _ _
    rw [htake] at hmem
    exact absurd hmem (by decide)
  have htake2 : ∀ u : List Char, (w ++ u).take 22 = w.take 22 := by
    intro u
    rw [List.take_append_eq_append_take, show 22 - w.length = 0 by omega]
    simp
  have hdrop2 : ∀ u : List Char, (w ++ u).drop 22 = w.drop 22 ++ u := by
    intro u
    rw [List.drop_append_eq_append_drop, show 22 - w.length = 0 by omega]
    simp
  have hp2 : pfx (mLit ++ ['{']) (w ++ z') = true := by
    rw [pfx_take_congr ((htake2 z').trans (htake2 ('\n' :: z)).symm)
      (le_of_eq mLit_brace_len)]
    exact hp
  refine mhm_isSome_intro hp2 ?_
  rw [hdrop2 ('\n' :: z), takeWhile_append_nlcons] at hb
  rw [hdrop2 z']
  exact mem_takeWhile_append hb

/-- If no position of `code` starts a marker match, neither does any
position inside a truncation `code.take k` followed by a line break. -/
theorem mhm_none_take {code : List Char} {k : Nat}
    (hnone : ∀ i, markerHeadMatch (code.drop i) = none) (z : List Char) :
    ∀ i, i < (code.take k).length →
      markerHeadMatch ((code.take k ++ '\n' :: z).drop i) = none := by
  intro i hi
  rw [List.length_take] at hi
  have hx : (code.take k ++ '\n' :: z).drop i = (code.take k).drop i ++ '\n' :: z := by
    rw [List.drop_append_eq_append_drop,
      show i - (code.take k).length = 0 by rw [List.length_take]; omega, List.drop_zero]
  cases hm : markerHeadMatch ((code.take k ++ '\n' :: z).drop i) with
  | none => rfl
  | some pr =>
    exfalso
    have hsome : (markerHeadMatch ((code.take k).drop i ++ '\n' :: z)).isSome = true := by
      rw [← hx, hm]
      rfl
    have hconf := mhm_confined (code.drop k) hsome
    have hglue : (code.take k).drop i ++ code.drop k = code.drop i := by
      conv_rhs => rw [← List.take_append_drop k code]
      rw [List.drop_append_eq_append_drop,
        show i - (code.take k).length = 0 by rw [List.length_take]; omega, List.drop_zero]
    rw [hglue, hnone i] at hconf
    simp at hconf

theorem findMarker_head_some {s : List Char} {pr : List Char × List Char}
    (h : markerHeadMatch s = some pr) : findMarker s = some ([], pr.1, pr.2) := by
  cases s with
  | nil => rw [mhm_nil] at h; simp at h
  | cons c t => exact findMarker_cons_some h

theorem notNl_of_ne {c : Char} (h : c ≠ '\n') : notNl c = true := by
  simp [notNl, h]

theorem takeWhile_all_eq {A : List Char} (hA : ∀ c ∈ A, notNl c = true) :
    A.takeWhile notNl = A := by
  have h := (takeWhile_append_all hA (B := []) trivial).1
  simpa using h

theorem drop_append_short {A B : List Char} {i : Nat} (h : i ≤ A.length) :
    (A ++ B).drop i = A.drop i ++ B := by
  rw [List.drop_append_eq_append_drop, show i - A.length = 0 by omega, List.drop_zero]

theorem countMarkers_zero_of_all_none {s : List Char}
    (h : ∀ i, markerHeadMatch (s.drop i) = none) : countMarkers s = 0 := by
  induction s with
  | nil => exact countMarkers_nil
  | cons c t ih =>
    rw [countMarkers_cons_none (by simpa using h 0)]
    exact ih (fun i => by simpa using h (i + 1))

/-- `subMarkers` does not change the first line of a string whose first line
holds no `'}'` (no match can start there). -/
theorem subMarkers_takeWhile_line (repl : List Char) {s : List Char}
    (hs : '}' ∉ s.takeWhile notNl) :
    (subMarkers repl s).takeWhile notNl = s.takeWhile notNl := by
  have hLnl : ∀ c ∈ s.takeWhile notNl, notNl c = true :=
    fun c hc => List.mem_takeWhile_imp hc
  have hL_nl : '\n' ∉ s.takeWhile notNl := by
    intro hmem
    have h := hLnl _ hmem
    simp [notNl] at h
  have hnone := mhm_none_braceless (b := s.dropWhile notNl) hL_nl hs
    (headFails_dropWhile notNl s)
  have hpass := subMarkers_pass repl (fun i hi => hnone i hi)
  rw [List.takeWhile_append_dropWhile] at hpass
  rw [hpass]
  cases hD : s.dropWhile notNl with
  | nil => rw [subMarkers_nil, List.append_nil, takeWhile_all_eq hLnl]
  | cons d D2 =>
    have hd : d = '\n' := by
      have hh := headFails_dropWhile notNl s
      rw [hD] at hh
      exact notNl_eq_false hh
    subst hd
    rw [subMarkers_cons_none repl (mhm_cons_ne _ (by decide))]
    rw [takeWhile_append_nlcons, takeWhile_all_eq hLnl]

theorem dumpsBody_notNl {w : JObj} (hw : JObj.wf w = true) :
    ∀ c ∈ JObj.dumpsBody w, notNl c = true :=
  fun c hc => notNl_of_ne (dumpsBody_ne_newline w hw c hc)

theorem dumps_jobj_shape (w : JObj) :
    JVal.dumps (.jobj w) = '{' :: JObj.dumpsBody w ++ ['}'] := by
  simp [JVal.dumps]

/-- Master lemma for the replacement path: rewriting the found marker with a
well-formed payload yields a string whose leftmost marker sits at the same
position and carries exactly the new payload, and whose marker count is one
more than that of the substituted tail. -/
theorem findMarker_after_sub {code pre p rest : List Char} {w : JObj}
    (hf : findMarker code = some (pre, p, rest)) (hw : JObj.wf w = true) :
    subMarkers (mLit ++ JVal.dumps (.jobj w)) code
        = pre ++ (mLit ++ JVal.dumps (.jobj w))
            ++ subMarkers (mLit ++ JVal.dumps (.jobj w)) rest ∧
      findMarker (subMarkers (mLit ++ JVal.dumps (.jobj w)) code)
        = some (pre, JVal.dumps (.jobj w),
            subMarkers (mLit ++ JVal.dumps (.jobj w)) rest) ∧
      countMarkers (subMarkers (mLit ++ JVal.dumps (.jobj w)) code)
        = 1 + countMarkers (subMarkers (mLit ++ JVal.dumps (.jobj w)) rest) := by
  obtain ⟨hmt, hdec, hnone⟩ := findMarker_some_spec hf
  obtain ⟨xs, hp_eq, hxs_nl, _, hrest_line⟩ := mhm_some_spec hmt
  have hsub := subMarkers_of_findMarker (mLit ++ JVal.dumps (.jobj w)) hf
  refine ⟨hsub, ?_⟩
  have hz_line : '}' ∉ (subMarkers (mLit ++ JVal.dumps (.jobj w)) rest).takeWhile notNl := by
    rw [subMarkers_takeWhile_line _ hrest_line]
    exact hrest_line
  have hhead : markerHeadMatch ((mLit ++ JVal.dumps (.jobj w))
      ++ subMarkers (mLit ++ JVal.dumps (.jobj w)) rest)
      = some (JVal.dumps (.jobj w), subMarkers (mLit ++ JVal.dumps (.jobj w)) rest) := by
    have hshape : (mLit ++ JVal.dumps (.jobj w))
        ++ subMarkers (mLit ++ JVal.dumps (.jobj w)) rest
        = mLit ++ '{' :: JObj.dumpsBody w
            ++ '}' :: subMarkers (mLit ++ JVal.dumps (.jobj w)) rest := by
      rw [dumps_jobj_shape]
      simp [List.append_assoc]
    rw [hshape, mhm_construct (dumpsBody_notNl hw) hz_line, dumps_jobj_shape]
  have hnone' : ∀ i < pre.length,
      markerHeadMatch ((pre ++ ((mLit ++ JVal.dumps (.jobj w))
        ++ subMarkers (mLit ++ JVal.dumps (.jobj w)) rest)).drop i) = none := by
    intro i hi
    have hold : code.drop i = (pre.drop i ++ mLit ++ ['{']) ++ (xs ++ '}' :: rest) := by
      rw [hdec, hp_eq]
      rw [show pre ++ mLit ++ ('{' :: xs ++ ['}']) ++ rest
          = pre ++ (mLit ++ '{' :: xs ++ '}' :: rest) from by simp]
      rw [drop_append_short (le_of_lt hi)]
      simp [List.append_assoc]
    have hy : '}' ∈ (xs ++ '}' :: rest).takeWhile notNl := by
      rw [takeWhile_append_tr _ hxs_nl, List.takeWhile_cons,
        if_pos (show notNl '}' = true from rfl)]
      exact List.mem_append_right _ (List.mem_cons_self _ _)
    have htr := mhm_none_transfer hy
      (JObj.dumpsBody w ++ '}' :: subMarkers (mLit ++ JVal.dumps (.jobj w)) rest)
      (hold ▸ hnone i hi)
    have hnew : (pre ++ ((mLit ++ JVal.dumps (.jobj w))
        ++ subMarkers (mLit ++ JVal.dumps (.jobj w)) rest)).drop i
        = (pre.drop i ++ mLit ++ ['{'])
            ++ (JObj.dumpsBody w ++ '}' :: subMarkers (mLit ++ JVal.dumps (.jobj w)) rest) := by
      rw [drop_append_short (le_of_lt hi), dumps_jobj_shape]
      simp [List.append_assoc]
    rw [hnew]
    exact htr
  constructor
  · rw [hsub, List.append_assoc, findMarker_pass hnone', findMarker_head_some hhead]
    simp
  · rw [hsub, List.append_assoc, countMarkers_pass hnone', countMarkers_some hhead]

/-- Counting markers after inserting a fresh comment line in front of a
tail: the comment contributes exactly one match. -/
theorem countMarkers_comment_cons {m : JObj} (hw : JObj.wf m = true)
    (tail : List Char) :
    countMarkers ((mLit ++ JVal.dumps (.jobj m)) ++ '\n' :: tail)
      = 1 + countMarkers tail := by
  have hz : '}' ∉ ('\n' :: tail).takeWhile notNl := by
    rw [List.takeWhile_cons, if_neg (by simp [notNl])]
    simp
  have hhead := mhm_construct (dumpsBody_notNl hw) hz
  have hshape : (mLit ++ JVal.dumps (.jobj m)) ++ '\n' :: tail
      = mLit ++ '{' :: JObj.dumpsBody m ++ '}' :: ('\n' :: tail) := by
    rw [dumps_jobj_shape]
    simp [List.append_assoc]
  rw [hshape, countMarkers_some hhead]
  rfl

theorem parsedPayload_wf (pl : List Char) : (parsedPayload pl).wf = true := by
  rw [parsedPayload]
  split
  · rename_i l hl
    have h := loads_wf hl
    simpa [JVal.wf] using h
  · rfl

theorem newStatusBase_wf (u : JObj) : (newStatusBase u).wf = true := by
  simp only [newStatusBase]
  by_cases h2 : u.hasKey tscKey = true <;> by_cases h1 : u.hasKey eslintKey = true <;>
    simp [h1, h2] <;> decide

/-- Inserting the fresh marker line between a truncation of a matchless
`code` and its remainder yields exactly one marker. -/
theorem countMarkers_insert_splice {code : List Char} {m : JObj}
    (hw : JObj.wf m = true)
    (hnone : ∀ i, markerHeadMatch (code.drop i) = none) (n : Nat) :
    countMarkers (code.take n
        ++ '\n' :: ((mLit ++ JVal.dumps (.jobj m)) ++ '\n' :: code.drop n)) = 1 := by
  rw [countMarkers_pass (mhm_none_take hnone _)]
  rw [countMarkers_cons_none (mhm_cons_ne _ (by decide))]
  rw [countMarkers_comment_cons hw]
  have h0 : countMarkers (code.drop n) = 0 :=
    countMarkers_zero_of_all_none (fun i => by rw [List.drop_drop]; exact hnone _)
  omega

/-- The central counting fact about `update_migration_status`: starting from
a code string holding at most one marker, the result holds exactly one. -/
theorem updateStatus_count {code : List Char} {u : JObj} (hu : u.allWf)
    (hc : countMarkers code ≤ 1) :
    countMarkers (update_migration_status code u) = 1 := by
  rw [update_migration_status]
  cases hf : findMarker code with
  | some pr =>
    obtain ⟨pre, p, rest⟩ := pr
    simp only
    have hw : (JObj.update (parsedPayload p) u).wf = true :=
      JObj.update_wf (parsedPayload_wf p) hu
    obtain ⟨hsub, hfind, hcount⟩ := findMarker_after_sub hf hw
    rw [hcount]
    have h1 : countMarkers code = 1 + countMarkers rest := countMarkers_of_findMarker hf
    have h0 : countMarkers rest = 0 := by omega
    obtain ⟨hczero, hid, hall⟩ := findMarker_none_spec (findMarker_none_of_count h0)
    rw [hid, h0]
  | none =>
    simp only
    obtain ⟨hczero, hid, hall⟩ := findMarker_none_spec hf
    have hw : (JObj.update (newStatusBase u) u).wf = true :=
      JObj.update_wf (newStatusBase_wf u) hu
    split
    · split
      · split
        · exact countMarkers_insert_splice hw hall _
        · rw [countMarkers_comment_cons hw, hczero]
      · split
        · exact countMarkers_insert_splice hw hall _
        · rw [countMarkers_comment_cons hw, hczero]
    · rw [countMarkers_comment_cons hw, hczero]

/-- Applying an empty update to a code string with a parseable marker
payload keeps the payload mapping unchanged. -/
theorem updateStatus_empty_payload {code pre p rest : List Char} {P : JObj}
    (hf : findMarker code = some (pre, p, rest))
    (hl : loads p = some (.jobj P)) :
    ∃ pre' rest', findMarker (update_migration_status code .onil)
        = some (pre', JVal.dumps (.jobj P), rest') ∧
      parsedPayload (JVal.dumps (.jobj P)) = parsedPayload p := by
  have hwP : JObj.wf P = true := by
    have h := loads_wf hl
    simpa [JVal.wf] using h
  have hpp : parsedPayload p = P := by
    rw [parsedPayload, hl]
  have hredef : update_migration_status code .onil
      = subMarkers (mLit ++ JVal.dumps (.jobj (parsedPayload p))) code := by
    rw [update_migration_status, hf]
    rfl
  rw [hredef, hpp]
  obtain ⟨hsub, hfind, hcount⟩ := findMarker_after_sub hf hwP
  refine ⟨pre, _, hfind, ?_⟩
  rw [parsedPayload, loads_dumps (by simpa [JVal.wf] using hwP)]

/-! ## Findings and the checker adapters (`validation.py` 102-257)

A `Finding` is one error dictionary `{"message": ..., "severity": ...}`.
The checkers talk to external processes (ESLint, tsc, yarn); each adapter is
modelled as a function of a small record describing what the external world
did, translated branch for branch from the source. -/

structure Finding where
  message : List Char
  severity : Nat
deriving DecidableEq

def noFilesMsg : List Char := "No files matching the pattern".toList

def fileNotFoundMsg (path : List Char) : List Char :=
  "File not found: ".toList ++ path

/-- The message of the `NameError` raised at `validation.py` line 156, where
the undefined name `full_path` is read; the surrounding `except` turns it
into a severity-2 finding. -/
def nameErrMsg : List Char := "name 'full_path' is not defined".toList

/-- Python `str.split("\n")`. -/
def splitNl : List Char → List (List Char)
  | [] => [[]]
  | c :: t =>
    if c = '\n' then [] :: splitNl t
    else
      match splitNl t with
      | [] => [[c]]
      | l :: ls => (c :: l) :: ls

def pyLower (s : List Char) : List Char := s.map Char.toLower

/-- What the external world does during one `check_lint_errors` call. -/
structure LintWorld where
  fileExists : Bool
  stderr : List Char
  stdout : List Char
  /-- `json.loads` + per-file `messages` extraction on the stdout JSON:
  `.error e` is a `JSONDecodeError` with text `e`, `.ok errs` the extracted
  message dictionaries (severities come from the tool's own output). -/
  parsed : Except (List Char) (List Finding)
  /-- An exception raised inside the `try` (e.g. the eslint binary missing). -/
  excMsg : Option (List Char)

/-- `ValidationOperations.check_lint_errors` (`validation.py` 130-178). -/
def check_lint_errors (path : List Char) (w : LintWorld) : Bool × List Finding :=
  match w.excMsg with
  | some e => (true, [⟨e, 2⟩])
  | none =>
    if w.fileExists = false then (true, [⟨fileNotFoundMsg path, 2⟩])
    else if occursIn noFilesMsg w.stderr then (true, [⟨nameErrMsg, 2⟩])
    else if pyStrip w.stdout ≠ [] then
      match w.parsed with
      | .error e => (true, [⟨"Failed to parse ESLint output: ".toList ++ e, 2⟩])
      | .ok errs => (decide (0 < errs.length), errs)
    else (false, [])

/-- What the external world does during one `check_typescript_errors`
(or `check_build_errors`) call. -/
structure ToolWorld where
  exitNonzero : Bool
  stderr : List Char
  stdout : List Char
  excMsg : Option (List Char)

/-- `ValidationOperations.check_typescript_errors` (`validation.py` 180-217). -/
def check_typescript_errors (w : ToolWorld) : Bool × List Finding :=
  match w.excMsg with
  | some e => (true, [⟨e, 2⟩])
  | none =>
    if w.exitNonzero then
      (true,
        ((splitNl (pyStrip (w.stderr ++ w.stdout))).filter
            (fun l => decide (pyStrip l ≠ []) && occursIn ("error TS".toList) l)).map
          (fun l => ⟨pyStrip l, 2⟩))
    else (false, [])

/-- `ValidationOperations.check_build_errors` (`validation.py` 219-256). -/
def check_build_errors (w : ToolWorld) : Bool × List Finding :=
  match w.excMsg with
  | some e => (true, [⟨e, 2⟩])
  | none =>
    if w.exitNonzero then
      (true,
        ((splitNl (pyStrip (w.stderr ++ w.stdout))).filter
            (fun l => decide (pyStrip l ≠ []) &&
              (occursIn ("error".toList) (pyLower l)
                || occursIn ("failed".toList) (pyLower l)))).map
          (fun l => ⟨pyStrip l, 2⟩))
    else (false, [])

/-! ## Repair-path code extraction (`validation.py` 436-442)

`re.search("```tsx\n(.+?)\n```", fix_response, re.DOTALL)`: the leftmost
position where the literal tag matches and a closing fence follows at least
one character later; the non-greedy group then extends to the first closing
fence.  This is the only pattern the repair path tries (the looser fallback
patterns live in `_parse_migration_response`, which only the initial
migration uses). -/

def tsxOpen : List Char := "```tsx\n".toList

def fenceClose : List Char := "\n```".toList

def extractTsx : List Char → Option (List Char)
  | [] => none
  | s@(_ :: t) =>
    if pfx tsxOpen s then
      match s.drop 7 with
      | [] => extractTsx t
      | d :: u =>
        match splitFirst fenceClose u with
        | some pr => some (d :: pr.1)
        | none => extractTsx t
    else extractTsx t

def fenceOpen (tag : List Char) : List Char := "```".toList ++ tag ++ ['\n']

/-- Which of the alternation's tags `(tsx|jsx|js|ts)` matches at this
position (at most one can). -/
def pickLang (s : List Char) : Option (List Char) :=
  if pfx (fenceOpen ("tsx".toList)) s then some ("tsx".toList)
  else if pfx (fenceOpen ("jsx".toList)) s then some ("jsx".toList)
  else if pfx (fenceOpen ("js".toList)) s then some ("js".toList)
  else if pfx (fenceOpen ("ts".toList)) s then some ("ts".toList)
  else none

/-- Spec-modelled: the any-language fallback pattern
`r'```(tsx|jsx|js|ts)\n([\s\S]*?)\n```'` (group may be empty). -/
def extractAnyLang : List Char → Option (List Char)
  | [] => none
  | s@(_ :: t) =>
    match pickLang s with
    | some tag =>
      match splitFirst fenceClose (s.drop (fenceOpen tag).length) with
      | some pr => some pr.1
      | none => extractAnyLang t
    | none => extractAnyLang t

/-- Spec-modelled: the untagged fallback pattern `r'```\n([\s\S]*?)\n```'`. -/
def extractUntagged : List Char → Option (List Char)
  | [] => none
  | s@(_ :: t) =>
    if pfx (fenceOpen []) s then
      match splitFirst fenceClose (s.drop 4) with
      | some pr => some pr.1
      | none => extractUntagged t
    else extractUntagged t

/-- Spec-modelled repair extraction: the specification describes the repair
path as trying the expected-language pattern, then an any-language block,
then an untagged block.  Built from the spec's words for comparison with
the runner's actual extraction (`extractTsx` only). -/
def specRepairExtract (response : List Char) : Option (List Char) :=
  match extractTsx response with
  | some inner => some (pyStrip inner)
  | none =>
    match extractAnyLang response with
    | some inner => some (pyStrip inner)
    | none =>
      match extractUntagged response with
      | some inner => some (pyStrip inner)
      | none => none

/-! ## The step runner (`run_validation_step`, `validation.py` 299-478)

External collaborators are oracles indexed by invocation counters:
`preCheck i` is the `i`-th `run_lint_fix` result, `fileContent i` the `i`-th
`read_file` result after a pre-check, `check i` the `i`-th check-method
result and `llm i` the `i`-th `_call_llm_api` outcome (`.error e` models the
`RuntimeError` the client raises, which `run_validation_step` does not
catch). -/

structure StepEnv where
  filePath : List Char
  preCheck : Nat → Bool × List Char
  fileContent : Nat → List Char
  check : Nat → Bool × List Finding
  llm : Nat → Except (List Char) (List Char)

inductive VType where
  | eslint
  | typescript
  | build
deriving DecidableEq

/-- `_get_validation_config`: the per-type status key. -/
def statusKey : VType → List Char
  | .eslint => "eslint".toList
  | .typescript => "tsc".toList
  | .build => "build".toList

/-- `_get_validation_config`: only `eslint` has a `pre_check_method`. -/
def hasPreCheck : VType → Bool
  | .eslint => true
  | .typescript => false
  | .build => false

/-- The mutable state of `run_validation_step`'s retry loop, together with
the invocation counters and the trace of status-values merged into the
marker (each `update_migration_status` call during the step merges exactly
one value under the step's status key). -/
structure StepState where
  updated : List Char
  remaining : List Finding
  cPre : Nat
  cRead : Nat
  cChk : Nat
  cLlm : Nat
  merges : List JVal

def mkKV (key : List Char) (v : JVal) : JObj := .ocons key v .onil

def inProgressVal : JVal := .jstr ("in progress".toList)

def doneVal : JVal := .jstr ("done".toList)

/-- The metrics dictionary built after a check (`validation.py` 372-387);
`int((passed/total_checks)*100)` is modelled by exact floor division. -/
def metricsObj (n : Nat) : JObj :=
  .ocons ("passed".toList) (.jnum (n + 10 - n))
    (.ocons ("failed".toList) (.jnum n)
      (.ocons ("total".toList) (.jnum (n + 10))
        (.ocons ("skipped".toList) (.jnum 0)
          (.ocons ("successRate".toList)
            (.jnum (if 0 < n + 10 then (n + 10 - n) * 100 / (n + 10) else 100))
            .onil))))

/-- What one pass of the `while` body decides: abort early (the file-not-found
pre-check exit), break with success, raise (an uncaught exception from the
completion call), or fall through to `retries += 1`. -/
inductive IterResult where
  | early (st : StepState)
  | done (success : Bool) (st : StepState)
  | next (st : StepState)
  | failed (e : List Char)

/-- The success epilogue: merge `{status_key: "done"}` when status updating
is on. -/
def stDone (key : List Char) (us : Bool) (st : StepState) : StepState :=
  if us then
    { st with
      updated := update_migration_status st.updated (mkKV key doneVal),
      merges := st.merges ++ [doneVal] }
  else st

/-- The body of the retry loop from the check onwards
(`validation.py` 356-467). -/
def stepIterMain (key : List Char) (env : StepEnv) (us llmOn : Bool)
    (st : StepState) : IterResult :=
  let chk := env.check st.cChk
  let st1 := { st with cChk := st.cChk + 1 }
  let st2 :=
    if us then
      { st1 with
        updated := update_migration_status st1.updated
          (mkKV key (.jobj (metricsObj chk.2.length))),
        merges := st1.merges ++ [JVal.jobj (metricsObj chk.2.length)] }
    else st1
  if chk.1 = false then
    .done true (stDone key us st2)
  else if llmOn then
    match env.llm st2.cLlm with
    | .error e => .failed e
    | .ok resp =>
      let st3 := { st2 with cLlm := st2.cLlm + 1 }
      match extractTsx resp with
      | some inner =>
        let st4 := { st3 with updated := pyStrip inner }
        let chk2 := env.check st4.cChk
        let st5 := { st4 with cChk := st4.cChk + 1, remaining := chk2.2 }
        if chk2.1 = false then .done true (stDone key us st5)
        else .next st5
      | none => .next st3
  else .next st2

/-- One full pass of the `while` body, including the eslint-only pre-check
(`validation.py` 344-354). -/
def stepIter (pre : Bool) (key : List Char) (env : StepEnv) (us llmOn : Bool)
    (st : StepState) : IterResult :=
  if pre then
    let pr := env.preCheck st.cPre
    let st1 := { st with cPre := st.cPre + 1 }
    if !pr.1 && occursIn noFilesMsg pr.2 then .early st1
    else
      stepIterMain key env us llmOn
        { st1 with updated := env.fileContent st1.cRead, cRead := st1.cRead + 1 }
  else stepIterMain key env us llmOn st

inductive StepOutcome where
  | earlyExit (st : StepState)
  | finished (success : Bool) (st : StepState)

/-- The retry loop `while not success and retries < max_retries`; the fuel is
`max_retries - retries`. -/
def runStepLoop (pre : Bool) (key : List Char) (env : StepEnv) (us llmOn : Bool) :
    Nat → StepState → Except (List Char) StepOutcome
  | 0, st => .ok (.finished false st)
  | fuel + 1, st =>
    match stepIter pre key env us llmOn st with
    | .early st' => .ok (.earlyExit st')
    | .done succ st' => .ok (.finished succ st')
    | .failed e => .error e
    | .next st' => runStepLoop pre key env us llmOn fuel st'

/-- `ValidationOperations.run_validation_step` (`validation.py` 299-478):
result `(success, updated_code, remaining_errors)` together with the final
loop state, or `.error` when an exception escapes (only the completion call
can raise one past the runner). -/
def runStep (vt : VType) (env : StepEnv) (llmOn us : Bool) (maxRetries : Nat)
    (code : List Char) :
    Except (List Char) (Bool × List Char × List Finding × StepState) :=
  let code1 :=
    if us then update_migration_status code (mkKV (statusKey vt) inProgressVal)
    else code
  let st0 : StepState :=
    ⟨code1, [], 0, 0, 0, 0, if us then [inProgressVal] else []⟩
  match runStepLoop (hasPreCheck vt) (statusKey vt) env us llmOn maxRetries st0 with
  | .error e => .error e
  | .ok (.earlyExit st) =>
    .ok (false, code1, [⟨fileNotFoundMsg env.filePath, 2⟩], st)
  | .ok (.finished succ st) => .ok (succ, st.updated, st.remaining, st)

/-! ## The pipeline (`run_validation_pipeline`, `main.py` 14-135) -/

/-- The default step sequence `['fix-eslint', 'fix-build', 'fix-tsc']`. -/
def defaultSteps : List VType := [.eslint, .build, .typescript]

/-- The initial status dictionary: `'pending'` for each step to be run, in
step order (`main.py` 63-70). -/
def initStatusOf (steps : List VType) : JObj :=
  steps.foldl (fun acc vt => acc.set (statusKey vt) (.jstr ("pending".toList))) .onil

/-- The per-step iteration of the pipeline (`main.py` 81-103): stop on the
first failing step, returning its code; thread the code through otherwise.
The trace records each invoked step with its final loop state. -/
def runPipelineSteps (envs : VType → StepEnv) (llmOn : Bool) (maxRetries : Nat) :
    List VType → List Char → List (VType × StepState) →
    Except (List Char) (Bool × List Char × List (VType × StepState))
  | [], code, tr => .ok (true, code, tr)
  | vt :: rest, code, tr =>
    match runStep vt (envs vt) llmOn true maxRetries code with
    | .error e => .error e
    | .ok (succ, code', _, st) =>
      if succ then runPipelineSteps envs llmOn maxRetries rest code' (tr ++ [(vt, st)])
      else .ok (false, code', tr ++ [(vt, st)])

/-- `run_validation_pipeline` (`main.py` 14-135): seed the marker with the
pending statuses, run the steps in order, and on any uncaught exception
return `(False, migrated_code)` — the original input, not the code the
failing step produced. -/
def run_validation_pipeline (envs : VType → StepEnv) (llmOn : Bool)
    (maxRetries : Nat) (migrated_code : List Char) (steps : List VType) :
    Bool × List Char × List (VType × StepState) :=
  let code0 :=
    match initStatusOf steps with
    | .onil => migrated_code
    | .ocons k v t => update_migration_status migrated_code (.ocons k v t)
  match runPipelineSteps envs llmOn maxRetries steps code0 [] with
  | .ok r => r
  | .error _ => (false, migrated_code, [])

/-! ### Lemmas about the runner -/

theorem extractTsx_cons_pos {c : Char} {t : List Char}
    (hp : pfx tsxOpen (c :: t) = true) :
    extractTsx (c :: t) =
      match (c :: t).drop 7 with
      | [] => extractTsx t
      | d :: u =>
        match splitFirst fenceClose u with
        | some pr => some (d :: pr.1)
        | none => extractTsx t := by
  rw [extractTsx, if_pos hp]

theorem extractTsx_cons_neg {c : Char} {t : List Char}
    (hp : pfx tsxOpen (c :: t) = false) :
    extractTsx (c :: t) = extractTsx t := by
  rw [extractTsx, if_neg (by simp [hp])]

/-- Correctness of the repair-path extraction on a response holding a
`tsx`-fenced block: the leftmost tag with the shortest non-empty body is
taken.  `hA` says no earlier position looks like the opening tag, `hI` that
no closing fence occurs inside the body after its first character. -/
theorem extractTsx_eq {a inner b : List Char} (hin : inner ≠ [])
    (hA : ∀ i, i < a.length →
      pfx tsxOpen ((a ++ (tsxOpen ++ inner ++ fenceClose ++ b)).drop i) = false)
    (hI : ∀ i, i < inner.length - 1 →
      pfx fenceClose ((inner.drop 1 ++ fenceClose ++ b).drop i) = false) :
    extractTsx (a ++ (tsxOpen ++ inner ++ fenceClose ++ b)) = some inner := by
  induction a with
  | nil =>
    rw [List.nil_append]
    cases inner with
    | nil => exact absurd rfl hin
    | cons d rest =>
      have hshape : tsxOpen ++ (d :: rest) ++ fenceClose ++ b
          = tsxOpen ++ (d :: (rest ++ fenceClose ++ b)) := by simp
      rw [hshape]
      obtain ⟨c0, t0, hct⟩ :
          ∃ c0 t0, tsxOpen ++ (d :: (rest ++ fenceClose ++ b)) = c0 :: t0 :=
        ⟨_, _, rfl⟩
      have hp : pfx tsxOpen (c0 :: t0) = true := by
        rw [← hct]
        exact pfx_refl_append _ _
      have hdrop : (c0 :: t0).drop 7 = d :: (rest ++ fenceClose ++ b) := by
        rw [← hct, show (7 : Nat) = tsxOpen.length from rfl, List.drop_left]
      have hsplit : splitFirst fenceClose (rest ++ fenceClose ++ b)
          = some (rest, b) := by
        refine splitFirst_of_min (fun i hi => ?_)
        have h := hI i (by simpa using hi)
        simpa using h
      rw [hct, extractTsx_cons_pos hp, hdrop]
      show (match splitFirst fenceClose (rest ++ fenceClose ++ b) with
        | some pr => some (d :: pr.1)
        | none => extractTsx t0) = some (d :: rest)
      rw [hsplit]
  | cons c a' ih =>
    have h0 := hA 0 (by simp)
    rw [List.drop_zero, List.cons_append] at h0
    rw [List.cons_append, extractTsx_cons_neg h0]
    refine ih (fun i hi => ?_)
    have h := hA (i + 1) (by simpa using Nat.succ_lt_succ hi)
    rwa [List.cons_append, List.drop_succ_cons] at h

/-- One failing pass with a configured repair service whose response yields
code: two check invocations, one completion call, the stripped block as the
new code, the verification findings as the remaining errors, and one metrics
merge (from the main check only). -/
theorem stepIter_fail_extract {key : List Char} {env : StepEnv} {st : StepState}
    {pre : Bool} {resp inner : List Char}
    (hpre : pre = true → (!(env.preCheck st.cPre).1
      && occursIn noFilesMsg (env.preCheck st.cPre).2) = false)
    (hchk1 : (env.check st.cChk).1 = true)
    (hllm : env.llm st.cLlm = .ok resp)
    (hex : extractTsx resp = some inner)
    (hchk2 : (env.check (st.cChk + 1)).1 = true) :
    stepIter pre key env true true st = .next
      { updated := pyStrip inner,
        remaining := (env.check (st.cChk + 1)).2,
        cPre := st.cPre + cond pre 1 0,
        cRead := st.cRead + cond pre 1 0,
        cChk := st.cChk + 2,
        cLlm := st.cLlm + 1,
        merges := st.merges
          ++ [JVal.jobj (metricsObj ((env.check st.cChk).2.length))] } := by
  obtain ⟨u, r, a, b, c, d, m⟩ := st
  cases pre with
  | false => simp [stepIter, stepIterMain, hchk1, hllm, hex, hchk2]
  | true => simp [stepIter, stepIterMain, hpre rfl, hchk1, hllm, hex, hchk2]

/-- One failing pass with a repair service whose response holds no `tsx`
block: one check, one completion call, no code change beyond the metrics
merge, no exception, and the attempt is consumed. -/
theorem stepIter_fail_noExtract {key : List Char} {env : StepEnv} {st : StepState}
    {pre : Bool} {resp : List Char}
    (hpre : pre = true → (!(env.preCheck st.cPre).1
      && occursIn noFilesMsg (env.preCheck st.cPre).2) = false)
    (hchk1 : (env.check st.cChk).1 = true)
    (hllm : env.llm st.cLlm = .ok resp)
    (hex : extractTsx resp = none) :
    stepIter pre key env true true st = .next
      { updated := update_migration_status
          (cond pre (env.fileContent st.cRead) st.updated)
          (mkKV key (.jobj (metricsObj ((env.check st.cChk).2.length)))),
        remaining := st.remaining,
        cPre := st.cPre + cond pre 1 0,
        cRead := st.cRead + cond pre 1 0,
        cChk := st.cChk + 1,
        cLlm := st.cLlm + 1,
        merges := st.merges
          ++ [JVal.jobj (metricsObj ((env.check st.cChk).2.length))] } := by
  obtain ⟨u, r, a, b, c, d, m⟩ := st
  cases pre with
  | false => simp [stepIter, stepIterMain, hchk1, hllm, hex]
  | true => simp [stepIter, stepIterMain, hpre rfl, hchk1, hllm, hex]

/-- One failing pass with no repair service configured: one check, no
completion call, the remaining errors untouched. -/
theorem stepIter_fail_noLlm {key : List Char} {env : StepEnv} {st : StepState}
    {pre : Bool}
    (hpre : pre = true → (!(env.preCheck st.cPre).1
      && occursIn noFilesMsg (env.preCheck st.cPre).2) = false)
    (hchk1 : (env.check st.cChk).1 = true) :
    stepIter pre key env true false st = .next
      { updated := update_migration_status
          (cond pre (env.fileContent st.cRead) st.updated)
          (mkKV key (.jobj (metricsObj ((env.check st.cChk).2.length)))),
        remaining := st.remaining,
        cPre := st.cPre + cond pre 1 0,
        cRead := st.cRead + cond pre 1 0,
        cChk := st.cChk + 1,
        cLlm := st.cLlm,
        merges := st.merges
          ++ [JVal.jobj (metricsObj ((env.check st.cChk).2.length))] } := by
  obtain ⟨u, r, a, b, c, d, m⟩ := st
  cases pre with
  | false => simp [stepIter, stepIterMain, hchk1]
  | true => simp [stepIter, stepIterMain, hpre rfl, hchk1]

/-- The pre-check detecting the missing file aborts the pass before any
check runs. -/
theorem stepIter_early {key : List Char} {env : StepEnv} {st : StepState}
    {us llmOn : Bool}
    (h : (!(env.preCheck st.cPre).1
      && occursIn noFilesMsg (env.preCheck st.cPre).2) = true) :
    stepIter true key env us llmOn st = .early { st with cPre := st.cPre + 1 } := by
  obtain ⟨u, r, a, b, c, d, m⟩ := st
  simp [stepIter, h]

/-- An exception inside the completion call escapes the pass. -/
theorem stepIter_exc {key : List Char} {env : StepEnv} {st : StepState}
    {pre : Bool} {e : List Char}
    (hpre : pre = true → (!(env.preCheck st.cPre).1
      && occursIn noFilesMsg (env.preCheck st.cPre).2) = false)
    (hchk1 : (env.check st.cChk).1 = true)
    (hllm : env.llm st.cLlm = .error e) :
    stepIter pre key env true true st = .failed e := by
  obtain ⟨u, r, a, b, c, d, m⟩ := st
  cases pre with
  | false => simp [stepIter, stepIterMain, hchk1, hllm]
  | true => simp [stepIter, stepIterMain, hpre rfl, hchk1, hllm]

/-- The retry loop when every check fails, the repair service is configured,
and every response yields code that never fixes the errors: each pass costs
two checks and one completion call, merges one metrics record (main checks
only), and the loop ends in failure carrying the last verification's
findings and the last stripped repair. -/
theorem runStepLoop_all_fail {pre : Bool} {key : List Char} {env : StepEnv}
    {resp inn : Nat → List Char}
    (hpre : pre = true → ∀ i, (!(env.preCheck i).1
      && occursIn noFilesMsg (env.preCheck i).2) = false)
    (hchk : ∀ i, (env.check i).1 = true)
    (hllm : ∀ i, env.llm i = .ok (resp i))
    (hex : ∀ i, extractTsx (resp i) = some (inn i)) :
    ∀ fuel st, ∃ st',
      runStepLoop pre key env true true fuel st = .ok (.finished false st')
      ∧ st'.cChk = st.cChk + 2 * fuel
      ∧ st'.cLlm = st.cLlm + fuel
      ∧ st'.cPre = st.cPre + cond pre fuel 0
      ∧ st'.merges = st.merges ++ (List.range fuel).map
          (fun i => JVal.jobj (metricsObj ((env.check (st.cChk + 2 * i)).2.length)))
      ∧ (0 < fuel →
          st'.remaining = (env.check (st.cChk + 2 * fuel - 1)).2
          ∧ st'.updated = pyStrip (inn (st.cLlm + fuel - 1)))
      ∧ (fuel = 0 → st'.remaining = st.remaining ∧ st'.updated = st.updated) := by
  intro fuel
  induction fuel with
  | zero =>
    intro st
    exact ⟨st, rfl, by omega, by omega, by cases pre <;> simp, by simp,
      fun h => absurd h (by omega), fun _ => ⟨rfl, rfl⟩⟩
  | succ n ih =>
    intro st
    have hiter := @stepIter_fail_extract key env st pre _ _ (fun h => hpre h st.cPre)
      (hchk st.cChk) (hllm st.cLlm) (hex st.cLlm) (hchk (st.cChk + 1))
    rw [show runStepLoop pre key env true true (n + 1) st
        = (match stepIter pre key env true true st with
          | .early st' => .ok (.earlyExit st')
          | .done succ st' => .ok (.finished succ st')
          | .failed e => .error e
          | .next st' => runStepLoop pre key env true true n st') from rfl, hiter]
    obtain ⟨st', h1, h2, h3, h4, h5, h6, h7⟩ := ih
      { updated := pyStrip (inn st.cLlm),
        remaining := (env.check (st.cChk + 1)).2,
        cPre := st.cPre + cond pre 1 0,
        cRead := st.cRead + cond pre 1 0,
        cChk := st.cChk + 2,
        cLlm := st.cLlm + 1,
        merges := st.merges
          ++ [JVal.jobj (metricsObj ((env.check st.cChk).2.length))] }
    replace h2 : st'.cChk = st.cChk + 2 + 2 * n := h2
    replace h3 : st'.cLlm = st.cLlm + 1 + n := h3
    replace h4 : st'.cPre = (st.cPre + cond pre 1 0) + cond pre n 0 := h4
    replace h5 : st'.merges = (st.merges
        ++ [JVal.jobj (metricsObj ((env.check st.cChk).2.length))])
      ++ (List.range n).map
        (fun i => JVal.jobj (metricsObj ((env.check (st.cChk + 2 + 2 * i)).2.length))) := h5
    refine ⟨st', h1, by omega, by omega, ?_, ?_, fun _ => ?_, fun h => by omega⟩
    · rw [h4]
      cases pre <;> simp [cond] <;> omega
    · rw [h5, List.range_succ_eq_map, List.map_cons, List.map_map]
      have hfun : ((fun i =>
            JVal.jobj (metricsObj ((env.check (st.cChk + 2 * i)).2.length)))
          ∘ Nat.succ)
          = fun i => JVal.jobj (metricsObj ((env.check (st.cChk + 2 + 2 * i)).2.length)) := by
        funext i
        show JVal.jobj (metricsObj ((env.check (st.cChk + 2 * (i + 1))).2.length)) = _
        rw [show st.cChk + 2 * (i + 1) = st.cChk + 2 + 2 * i by omega]
      rw [hfun]
      simp
    · cases n with
      | zero =>
        obtain ⟨hr, hu⟩ := h7 rfl
        replace hr : st'.remaining = (env.check (st.cChk + 1)).2 := hr
        replace hu : st'.updated = pyStrip (inn st.cLlm) := hu
        constructor
        · rw [hr]
          rw [show st.cChk + 2 * (0 + 1) - 1 = st.cChk + 1 by omega]
        · rw [hu]
          rw [show st.cLlm + (0 + 1) - 1 = st.cLlm by omega]
      | succ m =>
        obtain ⟨hr, hu⟩ := h6 (by omega)
        replace hr : st'.remaining = (env.check ((st.cChk + 2) + 2 * (m + 1) - 1)).2 := hr
        replace hu : st'.updated = pyStrip (inn ((st.cLlm + 1) + (m + 1) - 1)) := hu
        constructor
        · rw [hr]
          rw [show (st.cChk + 2) + 2 * (m + 1) - 1 = st.cChk + 2 * (m + 1 + 1) - 1 by omega]
        · rw [hu]
          rw [show (st.cLlm + 1) + (m + 1) - 1 = st.cLlm + (m + 1 + 1) - 1 by omega]

/-- The retry loop when every check fails and the configured repair service
never yields an extractable block: each malformed response consumes exactly
one retry and one completion call, no pass aborts the step, and the
remaining-errors accumulator is never touched. -/
theorem runStepLoop_noExtract {pre : Bool} {key : List Char} {env : StepEnv}
    {resp : Nat → List Char}
    (hpre : pre = true → ∀ i, (!(env.preCheck i).1
      && occursIn noFilesMsg (env.preCheck i).2) = false)
    (hchk : ∀ i, (env.check i).1 = true)
    (hllm : ∀ i, env.llm i = .ok (resp i))
    (hex : ∀ i, extractTsx (resp i) = none) :
    ∀ fuel st, ∃ st',
      runStepLoop pre key env true true fuel st = .ok (.finished false st')
      ∧ st'.cChk = st.cChk + fuel
      ∧ st'.cLlm = st.cLlm + fuel
      ∧ st'.remaining = st.remaining
      ∧ st'.merges = st.merges ++ (List.range fuel).map
          (fun i => JVal.jobj (metricsObj ((env.check (st.cChk + i)).2.length))) := by
  intro fuel
  induction fuel with
  | zero =>
    intro st
    exact ⟨st, rfl, by omega, by omega, rfl, by simp⟩
  | succ n ih =>
    intro st
    have hiter := @stepIter_fail_noExtract key env st pre _ (fun h => hpre h st.cPre)
      (hchk st.cChk) (hllm st.cLlm) (hex st.cLlm)
    rw [show runStepLoop pre key env true true (n + 1) st
        = (match stepIter pre key env true true st with
          | .early st' => .ok (.earlyExit st')
          | .done succ st' => .ok (.finished succ st')
          | .failed e => .error e
          | .next st' => runStepLoop pre key env true true n st') from rfl, hiter]
    obtain ⟨st', h1, h2, h3, h4, h5⟩ := ih
      { updated := update_migration_status
          (cond pre (env.fileContent st.cRead) st.updated)
          (mkKV key (.jobj (metricsObj ((env.check st.cChk).2.length)))),
        remaining := st.remaining,
        cPre := st.cPre + cond pre 1 0,
        cRead := st.cRead + cond pre 1 0,
        cChk := st.cChk + 1,
        cLlm := st.cLlm + 1,
        merges := st.merges
          ++ [JVal.jobj (metricsObj ((env.check st.cChk).2.length))] }
    replace h2 : st'.cChk = st.cChk + 1 + n := h2
    replace h3 : st'.cLlm = st.cLlm + 1 + n := h3
    replace h4 : st'.remaining = st.remaining := h4
    replace h5 : st'.merges = (st.merges
        ++ [JVal.jobj (metricsObj ((env.check st.cChk).2.length))])
      ++ (List.range n).map
        (fun i => JVal.jobj (metricsObj ((env.check (st.cChk + 1 + i)).2.length))) := h5
    refine ⟨st', h1, by omega, by omega, h4, ?_⟩
    rw [h5, List.range_succ_eq_map, List.map_cons, List.map_map]
    have hfun : ((fun i =>
          JVal.jobj (metricsObj ((env.check (st.cChk + i)).2.length)))
        ∘ Nat.succ)
        = fun i => JVal.jobj (metricsObj ((env.check (st.cChk + 1 + i)).2.length)) := by
      funext i
      show JVal.jobj (metricsObj ((env.check (st.cChk + (i + 1))).2.length)) = _
      rw [show st.cChk + (i + 1) = st.cChk + 1 + i by omega]
    rw [hfun]
    simp

/-- The retry loop with no repair service: each pass is one check and one
metrics merge; the remaining-errors accumulator is never touched. -/
theorem runStepLoop_noLlm {pre : Bool} {key : List Char} {env : StepEnv}
    (hpre : pre = true → ∀ i, (!(env.preCheck i).1
      && occursIn noFilesMsg (env.preCheck i).2) = false)
    (hchk : ∀ i, (env.check i).1 = true) :
    ∀ fuel st, ∃ st',
      runStepLoop pre key env true false fuel st = .ok (.finished false st')
      ∧ st'.cChk = st.cChk + fuel
      ∧ st'.cLlm = st.cLlm
      ∧ st'.remaining = st.remaining
      ∧ st'.merges = st.merges ++ (List.range fuel).map
          (fun i => JVal.jobj (metricsObj ((env.check (st.cChk + i)).2.length))) := by
  intro fuel
  induction fuel with
  | zero =>
    intro st
    exact ⟨st, rfl, by omega, rfl, rfl, by simp⟩
  | succ n ih =>
    intro st
    have hiter := @stepIter_fail_noLlm key env st pre (fun h => hpre h st.cPre)
      (hchk st.cChk)
    rw [show runStepLoop pre key env true false (n + 1) st
        = (match stepIter pre key env true false st with
          | .early st' => .ok (.earlyExit st')
          | .done succ st' => .ok (.finished succ st')
          | .failed e => .error e
          | .next st' => runStepLoop pre key env true false n st') from rfl, hiter]
    obtain ⟨st', h1, h2, h3, h4, h5⟩ := ih
      { updated := update_migration_status
          (cond pre (env.fileContent st.cRead) st.updated)
          (mkKV key (.jobj (metricsObj ((env.check st.cChk).2.length)))),
        remaining := st.remaining,
        cPre := st.cPre + cond pre 1 0,
        cRead := st.cRead + cond pre 1 0,
        cChk := st.cChk + 1,
        cLlm := st.cLlm,
        merges := st.merges
          ++ [JVal.jobj (metricsObj ((env.check st.cChk).2.length))] }
    replace h2 : st'.cChk = st.cChk + 1 + n := h2
    replace h3 : st'.cLlm = st.cLlm := h3
    replace h4 : st'.remaining = st.remaining := h4
    replace h5 : st'.merges = (st.merges
        ++ [JVal.jobj (metricsObj ((env.check st.cChk).2.length))])
      ++ (List.range n).map
        (fun i => JVal.jobj (metricsObj ((env.check (st.cChk + 1 + i)).2.length))) := h5
    refine ⟨st', h1, by omega, h3, h4, ?_⟩
    rw [h5, List.range_succ_eq_map, List.map_cons, List.map_map]
    have hfun : ((fun i =>
          JVal.jobj (metricsObj ((env.check (st.cChk + i)).2.length)))
        ∘ Nat.succ)
        = fun i => JVal.jobj (metricsObj ((env.check (st.cChk + 1 + i)).2.length)) := by
      funext i
      show JVal.jobj (metricsObj ((env.check (st.cChk + (i + 1))).2.length)) = _
      rw [show st.cChk + (i + 1) = st.cChk + 1 + i by omega]
    rw [hfun]
    simp

/-! ## Concrete environments for instantiating the claims -/

/-- Checks always fail with one finding; repair responses always carry a
`tsx` block that never fixes anything. -/
def wEnv : StepEnv where
  filePath := "f.tsx".toList
  preCheck := fun _ => (true, [])
  fileContent := fun _ => "x".toList
  check := fun _ => (true, [⟨"boom".toList, 2⟩])
  llm := fun _ => .ok ("```tsx\ny\n```".toList)

/-- The pre-check reports the missing file. -/
def missEnv : StepEnv where
  filePath := "f.tsx".toList
  preCheck := fun _ => (false, "No files matching the pattern f.tsx".toList)
  fileContent := fun _ => "x".toList
  check := fun _ => (true, [⟨"boom".toList, 2⟩])
  llm := fun _ => .ok ("```tsx\ny\n```".toList)

/-- Repair responses carry no fenced block. -/
def badRespEnv : StepEnv where
  filePath := "f.tsx".toList
  preCheck := fun _ => (true, [])
  fileContent := fun _ => "x".toList
  check := fun _ => (true, [⟨"boom".toList, 2⟩])
  llm := fun _ => .ok ("no code here".toList)

/-- The completion call raises. -/
def excEnv : StepEnv where
  filePath := "f.tsx".toList
  preCheck := fun _ => (true, [])
  fileContent := fun _ => "x".toList
  check := fun _ => (true, [⟨"boom".toList, 2⟩])
  llm := fun _ => .error ("Error calling LLM API: boom".toList)

/-! ## The claims -/

/-- C1: retry/check counts of `run_validation_step` (amended).  For
`maxRetries = N ≥ 1`, when every check reports findings and no repair ever
eliminates them: with a repair service configured whose every response
yields code, the runner performs `2 * N` check invocations (each attempt
runs a main check plus a post-repair verification check) and `N` repair
attempts; without a repair service it performs exactly `N` check
invocations and `0` repair attempts.  Either way it returns failure — the
counts are not `N` checks with `N-1` or `N` repairs. -/
theorem claim_C1_retry_counts {env : StepEnv} {N : Nat}
    {resp inn : Nat → List Char} (vt : VType) (hN : 1 ≤ N)
    (hpre : ∀ i, (!(env.preCheck i).1
      && occursIn noFilesMsg (env.preCheck i).2) = false)
    (hchk : ∀ i, (env.check i).1 = true)
    (hllm : ∀ i, env.llm i = .ok (resp i))
    (hex : ∀ i, extractTsx (resp i) = some (inn i))
    (code : List Char) :
    (∃ c rem st, runStep vt env true true N code = .ok (false, c, rem, st)
      ∧ st.cChk = 2 * N ∧ st.cLlm = N)
    ∧ (∃ c rem st, runStep vt env false true N code = .ok (false, c, rem, st)
      ∧ st.cChk = N ∧ st.cLlm = 0) := by
  constructor
  · obtain ⟨st', h1, h2, h3, _, _, _, _⟩ :=
      @runStepLoop_all_fail (hasPreCheck vt) (statusKey vt) env resp inn
        (fun _ => hpre) hchk hllm hex N
        ⟨update_migration_status code (mkKV (statusKey vt) inProgressVal), [],
          0, 0, 0, 0, [inProgressVal]⟩
    replace h2 : st'.cChk = 0 + 2 * N := h2
    replace h3 : st'.cLlm = 0 + N := h3
    refine ⟨st'.updated, st'.remaining, st', ?_, by omega, by omega⟩
    show (match runStepLoop (hasPreCheck vt) (statusKey vt) env true true N
        ⟨update_migration_status code (mkKV (statusKey vt) inProgressVal), [],
          0, 0, 0, 0, [inProgressVal]⟩ with
      | .error e => .error e
      | .ok (.earlyExit st) =>
        .ok (false, update_migration_status code (mkKV (statusKey vt) inProgressVal),
          [⟨fileNotFoundMsg env.filePath, 2⟩], st)
      | .ok (.finished succ st) => .ok (succ, st.updated, st.remaining, st))
      = Except.ok (false, st'.updated, st'.remaining, st')
    rw [h1]
  · obtain ⟨st', h1, h2, h3, _, _⟩ :=
      @runStepLoop_noLlm (hasPreCheck vt) (statusKey vt) env
        (fun _ => hpre) hchk N
        ⟨update_migration_status code (mkKV (statusKey vt) inProgressVal), [],
          0, 0, 0, 0, [inProgressVal]⟩
    replace h2 : st'.cChk = 0 + N := h2
    replace h3 : st'.cLlm = 0 := h3
    refine ⟨st'.updated, st'.remaining, st', ?_, by omega, h3⟩
    show (match runStepLoop (hasPreCheck vt) (statusKey vt) env true false N
        ⟨update_migration_status code (mkKV (statusKey vt) inProgressVal), [],
          0, 0, 0, 0, [inProgressVal]⟩ with
      | .error e => .error e
      | .ok (.earlyExit st) =>
        .ok (false, update_migration_status code (mkKV (statusKey vt) inProgressVal),
          [⟨fileNotFoundMsg env.filePath, 2⟩], st)
      | .ok (.finished succ st) => .ok (succ, st.updated, st.remaining, st))
      = Except.ok (false, st'.updated, st'.remaining, st')
    rw [h1]

/-- Witness for C1: the concrete environment `wEnv` at `N = 1`. -/
theorem claim_C1_witness :
    1 ≤ 1 ∧
    ((∃ c rem st, runStep .build wEnv true true 1 ("x".toList)
        = .ok (false, c, rem, st) ∧ st.cChk = 2 * 1 ∧ st.cLlm = 1)
    ∧ (∃ c rem st, runStep .build wEnv false true 1 ("x".toList)
        = .ok (false, c, rem, st) ∧ st.cChk = 1 ∧ st.cLlm = 0)) :=
  ⟨Nat.le_refl 1,
    @claim_C1_retry_counts wEnv 1 (fun _ => ("```tsx\ny\n```".toList))
      (fun _ => ("y".toList)) .build (Nat.le_refl 1) (fun _ => rfl) (fun _ => rfl)
      (fun _ => rfl) (fun _ => rfl) ("x".toList)⟩

/-- Counterexample to C1 as stated: with `maxRetries = 1` and a repair
service configured the runner performs two check invocations, not one; and
with `maxRetries = 2` and no repair service it performs zero repair
attempts, neither `N - 1 = 1` nor `N = 2`. -/
theorem claim_C1_cx :
    (∃ c rem st, runStep .build wEnv true true 1 ("x".toList)
      = .ok (false, c, rem, st) ∧ st.cChk ≠ 1)
    ∧ (∃ c rem st, runStep .build wEnv false true 2 ("x".toList)
      = .ok (false, c, rem, st) ∧ st.cLlm ≠ 1 ∧ st.cLlm ≠ 2) :=
  ⟨⟨_, _, _, rfl, by decide⟩, ⟨_, _, _, rfl, by decide, by decide⟩⟩

/-- C2: pipeline short-circuit.  With the step sequence
[eslint, build, typescript], when the eslint step fails, the pipeline stops
at once: its result is failure with the failing step's final code, and the
trace holds only the eslint step — the build and typescript environments
are never consulted. -/
theorem claim_C2_short_circuit {envs : VType → StepEnv} {llmOn : Bool}
    {N : Nat} {migrated c' : List Char} {rem : List Finding} {st : StepState}
    (hfail : runStep .eslint (envs .eslint) llmOn true N
        (update_migration_status migrated (initStatusOf defaultSteps))
      = .ok (false, c', rem, st)) :
    run_validation_pipeline envs llmOn N migrated defaultSteps
      = (false, c', [(.eslint, st)]) := by
  have h0 : run_validation_pipeline envs llmOn N migrated defaultSteps
      = (match runPipelineSteps envs llmOn N defaultSteps
            (update_migration_status migrated (initStatusOf defaultSteps)) [] with
        | .ok r => r
        | .error _ => (false, migrated, [])) := rfl
  rw [h0]
  rw [show runPipelineSteps envs llmOn N defaultSteps
      (update_migration_status migrated (initStatusOf defaultSteps)) []
      = (match runStep .eslint (envs .eslint) llmOn true N
            (update_migration_status migrated (initStatusOf defaultSteps)) with
        | .error e => .error e
        | .ok (succ, code', _, st) =>
          if succ then
            runPipelineSteps envs llmOn N [.build, .typescript] code'
              ([] ++ [(.eslint, st)])
          else .ok (false, code', [] ++ [(.eslint, st)])) from rfl, hfail]
  simp

/-- Witness for C2: the concrete environment `wEnv` (failing checks, no
repair service) for every step. -/
theorem claim_C2_witness :
    ∃ c st, run_validation_pipeline (fun _ => wEnv) false 1 ("x".toList) defaultSteps
      = (false, c, [(.eslint, st)]) :=
  ⟨_, _, claim_C2_short_circuit rfl⟩

/-- C3 (amended): the missing-file short-circuit exists only for the eslint
step (the only type with a pre-check).  It is triggered by the pre-check's
"No files matching the pattern" output, aborts before any check invocation
with the single severity-2 file-not-found finding, for every retry budget
`N ≥ 1`; a non-eslint step has no such bypass and consumes the full retry
budget when its checks keep failing. -/
theorem claim_C3_early_exit {env env' : StepEnv} {N : Nat} {llmOn : Bool}
    {code code' : List Char} (hN : 1 ≤ N) (vt : VType) (hvt : vt ≠ .eslint)
    (h0 : (!(env.preCheck 0).1 && occursIn noFilesMsg (env.preCheck 0).2) = true)
    (hchk : ∀ i, (env'.check i).1 = true) :
    (∃ st, runStep .eslint env llmOn true N code
        = .ok (false,
            update_migration_status code (mkKV (statusKey .eslint) inProgressVal),
            [⟨fileNotFoundMsg env.filePath, 2⟩], st)
        ∧ st.cChk = 0 ∧ st.cPre = 1)
    ∧ (∃ c rem st, runStep vt env' false true N code' = .ok (false, c, rem, st)
        ∧ st.cChk = N) := by
  constructor
  · obtain ⟨n, rfl⟩ : ∃ n, N = n + 1 := ⟨N - 1, by omega⟩
    refine ⟨⟨update_migration_status code (mkKV (statusKey .eslint) inProgressVal),
      [], 0 + 1, 0, 0, 0, [inProgressVal]⟩, ?_, rfl, rfl⟩
    have hiter := @stepIter_early (statusKey .eslint) env
      ⟨update_migration_status code (mkKV (statusKey .eslint) inProgressVal),
        [], 0, 0, 0, 0, [inProgressVal]⟩ true llmOn h0
    show (match runStepLoop true (statusKey .eslint) env true llmOn (n + 1)
        ⟨update_migration_status code (mkKV (statusKey .eslint) inProgressVal),
          [], 0, 0, 0, 0, [inProgressVal]⟩ with
      | .error e => .error e
      | .ok (.earlyExit st) =>
        .ok (false,
          update_migration_status code (mkKV (statusKey .eslint) inProgressVal),
          [⟨fileNotFoundMsg env.filePath, 2⟩], st)
      | .ok (.finished succ st) => .ok (succ, st.updated, st.remaining, st))
      = Except.ok (false,
          update_migration_status code (mkKV (statusKey .eslint) inProgressVal),
          [⟨fileNotFoundMsg env.filePath, 2⟩],
          ⟨update_migration_status code (mkKV (statusKey .eslint) inProgressVal),
            [], 0 + 1, 0, 0, 0, [inProgressVal]⟩)
    rw [show runStepLoop true (statusKey .eslint) env true llmOn (n + 1)
        ⟨update_migration_status code (mkKV (statusKey .eslint) inProgressVal),
          [], 0, 0, 0, 0, [inProgressVal]⟩
        = (match stepIter true (statusKey .eslint) env true llmOn
            ⟨update_migration_status code (mkKV (statusKey .eslint) inProgressVal),
              [], 0, 0, 0, 0, [inProgressVal]⟩ with
          | .early st' => .ok (.earlyExit st')
          | .done succ st' => .ok (.finished succ st')
          | .failed e => .error e
          | .next st' =>
            runStepLoop true (statusKey .eslint) env true llmOn n st')
        from rfl, hiter]
  · have hpre' : hasPreCheck vt = true → ∀ i, (!(env'.preCheck i).1
        && occursIn noFilesMsg (env'.preCheck i).2) = false := by
      intro h
      cases vt with
      | eslint => exact absurd rfl hvt
      | typescript => exact absurd h (by decide)
      | build => exact absurd h (by decide)
    obtain ⟨st', h1, h2, _, _, _⟩ :=
      @runStepLoop_noLlm (hasPreCheck vt) (statusKey vt) env' hpre' hchk N
        ⟨update_migration_status code' (mkKV (statusKey vt) inProgressVal), [],
          0, 0, 0, 0, [inProgressVal]⟩
    replace h2 : st'.cChk = 0 + N := h2
    refine ⟨st'.updated, st'.remaining, st', ?_, by omega⟩
    show (match runStepLoop (hasPreCheck vt) (statusKey vt) env' true false N
        ⟨update_migration_status code' (mkKV (statusKey vt) inProgressVal), [],
          0, 0, 0, 0, [inProgressVal]⟩ with
      | .error e => .error e
      | .ok (.earlyExit st) =>
        .ok (false, update_migration_status code' (mkKV (statusKey vt) inProgressVal),
          [⟨fileNotFoundMsg env'.filePath, 2⟩], st)
      | .ok (.finished succ st) => .ok (succ, st.updated, st.remaining, st))
      = Except.ok (false, st'.updated, st'.remaining, st')
    rw [h1]

/-- Witness for C3: `missEnv` for the eslint part, `wEnv` with a failing
check for the build part, at `N = 2`. -/
theorem claim_C3_witness :
    1 ≤ 2 ∧
    ((∃ st, runStep .eslint missEnv false true 2 ("x".toList)
        = .ok (false,
            update_migration_status ("x".toList) (mkKV (statusKey .eslint) inProgressVal),
            [⟨fileNotFoundMsg missEnv.filePath, 2⟩], st)
        ∧ st.cChk = 0 ∧ st.cPre = 1)
    ∧ (∃ c rem st, runStep .build wEnv false true 2 ("y".toList)
        = .ok (false, c, rem, st) ∧ st.cChk = 2)) :=
  ⟨by decide,
    claim_C3_early_exit (by decide) .build (by decide) (by decide) (fun _ => rfl)⟩

/-- Counterexample to C3 as stated: for a build step a missing working file
does not short-circuit — the runner still consumes every retry (two
attempts at `maxRetries = 2`), because only eslint has a pre-check. -/
theorem claim_C3_cx :
    ∃ c rem st, runStep .build wEnv false true 2 ("x".toList)
      = .ok (false, c, rem, st) ∧ st.cChk ≠ 1 :=
  ⟨_, _, _, rfl, by decide⟩

/-- C4 (amended): exhausting the retries returns failure with the loop's
final code — the last stripped repair when every attempt produced one — and
the findings of the last post-repair verification check; no `"done"` status
is merged on the failure path.  (The findings are not in general those of
the last check: the accumulator is only ever assigned by the verification
re-check of a successful extraction.) -/
theorem claim_C4_exhausted {env : StepEnv} {N : Nat}
    {resp inn : Nat → List Char} (vt : VType) (hN : 1 ≤ N)
    (hpre : ∀ i, (!(env.preCheck i).1
      && occursIn noFilesMsg (env.preCheck i).2) = false)
    (hchk : ∀ i, (env.check i).1 = true)
    (hllm : ∀ i, env.llm i = .ok (resp i))
    (hex : ∀ i, extractTsx (resp i) = some (inn i))
    (code : List Char) :
    ∃ st, runStep vt env true true N code
      = .ok (false, pyStrip (inn (N - 1)), (env.check (2 * N - 1)).2, st)
      ∧ doneVal ∉ st.merges := by
  obtain ⟨st', h1, _, _, _, h5, h6, _⟩ :=
    @runStepLoop_all_fail (hasPreCheck vt) (statusKey vt) env resp inn
      (fun _ => hpre) hchk hllm hex N
      ⟨update_migration_status code (mkKV (statusKey vt) inProgressVal), [],
        0, 0, 0, 0, [inProgressVal]⟩
  obtain ⟨hr, hu⟩ := h6 (by omega)
  replace hr : st'.remaining = (env.check (0 + 2 * N - 1)).2 := hr
  replace hu : st'.updated = pyStrip (inn (0 + N - 1)) := hu
  replace h5 : st'.merges = [inProgressVal] ++ (List.range N).map
      (fun i => JVal.jobj (metricsObj ((env.check (0 + 2 * i)).2.length))) := h5
  refine ⟨st', ?_, ?_⟩
  · show (match runStepLoop (hasPreCheck vt) (statusKey vt) env true true N
        ⟨update_migration_status code (mkKV (statusKey vt) inProgressVal), [],
          0, 0, 0, 0, [inProgressVal]⟩ with
      | .error e => .error e
      | .ok (.earlyExit st) =>
        .ok (false, update_migration_status code (mkKV (statusKey vt) inProgressVal),
          [⟨fileNotFoundMsg env.filePath, 2⟩], st)
      | .ok (.finished succ st) => .ok (succ, st.updated, st.remaining, st))
      = Except.ok (false, pyStrip (inn (N - 1)), (env.check (2 * N - 1)).2, st')
    rw [h1]
    show Except.ok (false, st'.updated, st'.remaining, st')
      = Except.ok (false, pyStrip (inn (N - 1)), (env.check (2 * N - 1)).2, st')
    rw [hr, hu]
    rw [show 0 + 2 * N - 1 = 2 * N - 1 by omega, show 0 + N - 1 = N - 1 by omega]
  · rw [h5]
    intro hmem
    rw [List.mem_append] at hmem
    rcases hmem with h | h
    · simp +decide [doneVal, inProgressVal] at h
    · obtain ⟨i, _, hi⟩ := List.mem_map.mp h
      simp [doneVal] at hi

/-- Witness for C4: `wEnv` at `N = 1`. -/
theorem claim_C4_witness :
    1 ≤ 1 ∧ ∃ st, runStep .build wEnv true true 1 ("x".toList)
      = .ok (false, pyStrip ("y".toList), (wEnv.check 1).2, st)
      ∧ doneVal ∉ st.merges :=
  ⟨Nat.le_refl 1,
    @claim_C4_exhausted wEnv 1 (fun _ => ("```tsx\ny\n```".toList))
      (fun _ => ("y".toList)) .build (Nat.le_refl 1) (fun _ => rfl) (fun _ => rfl)
      (fun _ => rfl) (fun _ => rfl) ("x".toList)⟩

/-- Counterexample to C4 as stated: with no repair service, a failing run
returns an empty findings list even though its last (and only) check
reported a finding — the returned findings are not those of the last
check. -/
theorem claim_C4_cx :
    ∃ c st, runStep .build wEnv false true 1 ("x".toList)
      = .ok (false, c, [], st) ∧ (wEnv.check 0).2 ≠ [] :=
  ⟨_, _, rfl, by decide⟩

/-- C5 (amended): the repair path extracts with the single pattern
"```tsx (body) ```" (non-greedy, DOTALL): on a response holding such a
block, the leftmost tag's shortest non-empty body is returned exactly; the
looser fallback patterns the spec describes exist only in the initial
migration's parser, not in the repair path; and a response without such a
block yields no repair (the attempt just falls through) rather than an
exception. -/
theorem claim_C5_extraction {a inner b : List Char} (hin : inner ≠ [])
    (hA : ∀ i, i < a.length →
      pfx tsxOpen ((a ++ (tsxOpen ++ inner ++ fenceClose ++ b)).drop i) = false)
    (hI : ∀ i, i < inner.length - 1 →
      pfx fenceClose ((inner.drop 1 ++ fenceClose ++ b).drop i) = false) :
    extractTsx (a ++ (tsxOpen ++ inner ++ fenceClose ++ b)) = some inner
    ∧ ∀ (key : List Char) (env : StepEnv) (st : StepState) (resp : List Char),
        (env.check st.cChk).1 = true → env.llm st.cLlm = .ok resp →
        extractTsx resp = none →
        ∃ st', stepIter false key env true true st = .next st' := by
  refine ⟨extractTsx_eq hin hA hI, ?_⟩
  intro key env st resp hchk hllm hex
  exact ⟨_, stepIter_fail_noExtract (fun h => absurd h (by decide)) hchk hllm hex⟩

/-- Witness for C5 on a concrete response. -/
theorem claim_C5_witness :
    extractTsx (("Sure:\n".toList)
        ++ (tsxOpen ++ ("const x = 1".toList) ++ fenceClose ++ ("\ndone".toList)))
      = some ("const x = 1".toList)
    ∧ ∀ (key : List Char) (env : StepEnv) (st : StepState) (resp : List Char),
        (env.check st.cChk).1 = true → env.llm st.cLlm = .ok resp →
        extractTsx resp = none →
        ∃ st', stepIter false key env true true st = .next st' :=
  claim_C5_extraction (by decide) (by decide) (by decide)

/-- Counterexample to C5 as stated: a response whose only fenced block is
tagged `js`: the repair path's extraction yields nothing, while the
fallback-chain extraction the spec describes succeeds. -/
theorem claim_C5_cx :
    extractTsx ("```js\nlet z = 1\n```".toList) = none
    ∧ specRepairExtract ("```js\nlet z = 1\n```".toList)
        = some ("let z = 1".toList) := by decide

/-- C6 (amended): a malformed or missing-block completion response is
treated as no improvement for the attempt — one completion call and one
retry slot consumed per attempt, the completion call never retried within
an attempt, the step not aborted.  An error raised inside the completion
call, however, is not contained: `run_validation_step` propagates it, and
the pipeline's handler then returns the original input code. -/
theorem claim_C6_repair_failure {env env' : StepEnv} {N : Nat}
    {resp : Nat → List Char} {e migrated : List Char} (vt : VType) (hN : 1 ≤ N)
    (hpre : ∀ i, (!(env.preCheck i).1
      && occursIn noFilesMsg (env.preCheck i).2) = false)
    (hchk : ∀ i, (env.check i).1 = true)
    (hllm : ∀ i, env.llm i = .ok (resp i))
    (hex : ∀ i, extractTsx (resp i) = none)
    (hpre' : ∀ i, (!(env'.preCheck i).1
      && occursIn noFilesMsg (env'.preCheck i).2) = false)
    (hchk' : (env'.check 0).1 = true)
    (hllm' : env'.llm 0 = .error e)
    (code : List Char) :
    (∃ c rem st, runStep vt env true true N code = .ok (false, c, rem, st)
      ∧ st.cLlm = N ∧ st.cChk = N)
    ∧ (∀ c, runStep vt env' true true N c = .error e)
    ∧ (∀ envs : VType → StepEnv, envs vt = env' →
        run_validation_pipeline envs true N migrated [vt] = (false, migrated, [])) := by
  have hKey2 : ∀ c : List Char, runStep vt env' true true N c = .error e := by
    intro c
    obtain ⟨n, rfl⟩ : ∃ n, N = n + 1 := ⟨N - 1, by omega⟩
    have hiter := @stepIter_exc (statusKey vt) env'
      ⟨update_migration_status c (mkKV (statusKey vt) inProgressVal), [],
        0, 0, 0, 0, [inProgressVal]⟩ (hasPreCheck vt) e
      (fun _ => hpre' 0) hchk' hllm'
    show (match runStepLoop (hasPreCheck vt) (statusKey vt) env' true true (n + 1)
        ⟨update_migration_status c (mkKV (statusKey vt) inProgressVal), [],
          0, 0, 0, 0, [inProgressVal]⟩ with
      | .error e => .error e
      | .ok (.earlyExit st) =>
        .ok (false, update_migration_status c (mkKV (statusKey vt) inProgressVal),
          [⟨fileNotFoundMsg env'.filePath, 2⟩], st)
      | .ok (.finished succ st) => .ok (succ, st.updated, st.remaining, st))
      = Except.error e
    rw [show runStepLoop (hasPreCheck vt) (statusKey vt) env' true true (n + 1)
        ⟨update_migration_status c (mkKV (statusKey vt) inProgressVal), [],
          0, 0, 0, 0, [inProgressVal]⟩
        = (match stepIter (hasPreCheck vt) (statusKey vt) env' true true
            ⟨update_migration_status c (mkKV (statusKey vt) inProgressVal), [],
              0, 0, 0, 0, [inProgressVal]⟩ with
          | .early st' => .ok (.earlyExit st')
          | .done succ st' => .ok (.finished succ st')
          | .failed e => .error e
          | .next st' =>
            runStepLoop (hasPreCheck vt) (statusKey vt) env' true true n st')
        from rfl, hiter]
  refine ⟨?_, hKey2, ?_⟩
  · obtain ⟨st', h1, h2, h3, _, _⟩ :=
      @runStepLoop_noExtract (hasPreCheck vt) (statusKey vt) env resp
        (fun _ => hpre) hchk hllm hex N
        ⟨update_migration_status code (mkKV (statusKey vt) inProgressVal), [],
          0, 0, 0, 0, [inProgressVal]⟩
    replace h2 : st'.cChk = 0 + N := h2
    replace h3 : st'.cLlm = 0 + N := h3
    refine ⟨st'.updated, st'.remaining, st', ?_, by omega, by omega⟩
    show (match runStepLoop (hasPreCheck vt) (statusKey vt) env true true N
        ⟨update_migration_status code (mkKV (statusKey vt) inProgressVal), [],
          0, 0, 0, 0, [inProgressVal]⟩ with
      | .error e => .error e
      | .ok (.earlyExit st) =>
        .ok (false, update_migration_status code (mkKV (statusKey vt) inProgressVal),
          [⟨fileNotFoundMsg env.filePath, 2⟩], st)
      | .ok (.finished succ st) => .ok (succ, st.updated, st.remaining, st))
      = Except.ok (false, st'.updated, st'.remaining, st')
    rw [h1]
  · intro envs henv
    have h0 : run_validation_pipeline envs true N migrated [vt]
        = (match runPipelineSteps envs true N [vt]
              (update_migration_status migrated (initStatusOf [vt])) [] with
          | .ok r => r
          | .error _ => (false, migrated, [])) := rfl
    rw [h0]
    rw [show runPipelineSteps envs true N [vt]
        (update_migration_status migrated (initStatusOf [vt])) []
        = (match runStep vt (envs vt) true true N
              (update_migration_status migrated (initStatusOf [vt])) with
          | .error e => .error e
          | .ok (succ, code', _, st) =>
            if succ then runPipelineSteps envs true N [] code' ([] ++ [(vt, st)])
            else .ok (false, code', [] ++ [(vt, st)])) from rfl]
    rw [henv, hKey2]

/-- Witness for C6: `badRespEnv` (blockless responses) and `excEnv` (a
raising completion call) at `N = 1`. -/
theorem claim_C6_witness :
    1 ≤ 1 ∧
    ((∃ c rem st, runStep .build badRespEnv true true 1 ("x".toList)
        = .ok (false, c, rem, st) ∧ st.cLlm = 1 ∧ st.cChk = 1)
    ∧ (∀ c, runStep .build excEnv true true 1 c
        = .error ("Error calling LLM API: boom".toList))
    ∧ (∀ envs : VType → StepEnv, envs .build = excEnv →
        run_validation_pipeline envs true 1 ("x".toList) [.build]
          = (false, "x".toList, []))) :=
  ⟨Nat.le_refl 1,
    @claim_C6_repair_failure badRespEnv excEnv 1 (fun _ => ("no code here".toList))
      ("Error calling LLM API: boom".toList) ("x".toList) .build (Nat.le_refl 1)
      (fun _ => rfl) (fun _ => rfl) (fun _ => rfl) (fun _ => rfl) (fun _ => rfl)
      rfl rfl ("x".toList)⟩

/-- Counterexample to C6 as stated: an error inside the completion call is
not "treated as no improvement" — it aborts `run_validation_step`
altogether (the exception propagates). -/
theorem claim_C6_cx :
    runStep .build excEnv true true 1 ("x".toList)
      = .error ("Error calling LLM API: boom".toList) := rfl

/-- C7 (amended): starting from a code string holding at most one marker
line, `update_migration_status` produces exactly one (an existing marker is
rewritten in place via merge-by-key; a fresh one is inserted only when none
exists).  Starting from an input that already violates the invariant,
`re.sub` rewrites every match, so duplicates are preserved, not collapsed. -/
theorem claim_C7_marker_unique {code : List Char} {u : JObj} (hu : u.allWf)
    (hc : countMarkers code ≤ 1) :
    countMarkers (update_migration_status code u) = 1 :=
  updateStatus_count hu hc

/-- Witness for C7 on a marker-free input with an empty update. -/
theorem claim_C7_witness :
    JObj.allWf .onil ∧ countMarkers ("x".toList) ≤ 1
    ∧ countMarkers (update_migration_status ("x".toList) .onil) = 1 :=
  ⟨trivial, by decide, claim_C7_marker_unique trivial (by decide)⟩

def twoMarkerCode : List Char :=
  ("// MIGRATION STATUS: {}\n// MIGRATION STATUS: {}\nx").toList

/-- Counterexample to C7 as stated: an input with two marker lines keeps
two after the update — `re.sub` rewrites both, so "exactly one marker after
any call" fails. -/
theorem claim_C7_cx :
    countMarkers twoMarkerCode = 2
    ∧ countMarkers (update_migration_status twoMarkerCode .onil) = 2 := by
  decide

/-- C8: merging an empty update into a code string whose marker payload
parses is a no-op on the marker's content: the rewritten marker carries the
dump of the same mapping, and parsing it back yields the payload the marker
had before. -/
theorem claim_C8_empty_update {code pre p rest : List Char} {P : JObj}
    (hf : findMarker code = some (pre, p, rest))
    (hl : loads p = some (.jobj P)) :
    ∃ pre' rest', findMarker (update_migration_status code .onil)
        = some (pre', JVal.dumps (.jobj P), rest')
      ∧ parsedPayload (JVal.dumps (.jobj P)) = parsedPayload p :=
  updateStatus_empty_payload hf hl

/-- Witness for C8 on a concrete marker with the empty payload. -/
theorem claim_C8_witness :
    ∃ pre' rest',
      findMarker (update_migration_status
          (("// MIGRATION STATUS: {}\nx").toList) .onil)
        = some (pre', JVal.dumps (.jobj .onil), rest')
      ∧ parsedPayload (JVal.dumps (.jobj .onil))
        = parsedPayload (("{}").toList) :=
  @claim_C8_empty_update (("// MIGRATION STATUS: {}\nx").toList)
    [] (("{}").toList) (("\nx").toList) .onil (by decide) rfl

/-- C9 (amended): every finding the checker adapters produce for a
"tool process failed to run" condition — a raised exception, the missing
file, the unfindable-file `stderr` (which in fact trips a `NameError` that
the adapter's own handler converts), or unparseable tool output — is
returned (not thrown) with severity 2, the warning ordinal, not the fatal
ordinal 3 the specification reserves for such conditions. -/
theorem claim_C9_severity (path e : List Char) (w : LintWorld) (w2 : ToolWorld) :
    (w.excMsg = some e → check_lint_errors path w = (true, [⟨e, 2⟩]))
    ∧ (w.excMsg = none → w.fileExists = false →
        check_lint_errors path w = (true, [⟨fileNotFoundMsg path, 2⟩]))
    ∧ (w.excMsg = none → w.fileExists = true →
        occursIn noFilesMsg w.stderr = true →
        check_lint_errors path w = (true, [⟨nameErrMsg, 2⟩]))
    ∧ (w.excMsg = none → w.fileExists = true →
        occursIn noFilesMsg w.stderr = false → pyStrip w.stdout ≠ [] →
        w.parsed = .error e →
        check_lint_errors path w
          = (true, [⟨"Failed to parse ESLint output: ".toList ++ e, 2⟩]))
    ∧ (w2.excMsg = some e → check_typescript_errors w2 = (true, [⟨e, 2⟩]))
    ∧ (w2.excMsg = some e → check_build_errors w2 = (true, [⟨e, 2⟩])) := by
  refine ⟨?_, ?_, ?_, ?_, ?_, ?_⟩
  · intro h
    simp [check_lint_errors, h]
  · intro h hf
    simp [check_lint_errors, h, hf]
  · intro h hf hs
    simp [check_lint_errors, h, hf, hs]
  · intro h hf hs hst hp
    simp [check_lint_errors, h, hf, hs, hst, hp]
  · intro h
    simp [check_typescript_errors, h]
  · intro h
    simp [check_build_errors, h]

/-- Witness for C9 on concrete worlds. -/
theorem claim_C9_witness :
    check_lint_errors ("f.tsx".toList)
        ⟨true, [], [], .ok [], some ("boom".toList)⟩
      = (true, [⟨"boom".toList, 2⟩])
    ∧ check_lint_errors ("f.tsx".toList) ⟨false, [], [], .ok [], none⟩
      = (true, [⟨fileNotFoundMsg ("f.tsx".toList), 2⟩])
    ∧ check_build_errors ⟨true, [], [], some ("boom".toList)⟩
      = (true, [⟨"boom".toList, 2⟩]) := by
  refine ⟨?_, ?_, ?_⟩
  · exact (claim_C9_severity ("f.tsx".toList) ("boom".toList)
      ⟨true, [], [], .ok [], some ("boom".toList)⟩
      ⟨true, [], [], some ("boom".toList)⟩).1 rfl
  · exact (claim_C9_severity ("f.tsx".toList) ("boom".toList)
      ⟨false, [], [], .ok [], none⟩
      ⟨true, [], [], some ("boom".toList)⟩).2.1 rfl rfl
  · exact (claim_C9_severity ("f.tsx".toList) ("boom".toList)
      ⟨false, [], [], .ok [], none⟩
      ⟨true, [], [], some ("boom".toList)⟩).2.2.2.2.2 rfl

/-- Counterexample to C9 as stated: the file-not-found finding carries
severity 2, not the fatal ordinal 3. -/
theorem claim_C9_cx :
    (check_lint_errors ("f.tsx".toList)
        ⟨false, [], [], .ok [], none⟩).2.map Finding.severity = [2]
    ∧ (2 : Nat) ≠ 3 := by
  decide

/-- C10 (amended): with status updating enabled, a metrics record
`{passed, failed, total, skipped, successRate}` with
`total = findings + 10`, `failed = findings`, `passed = total - failed`,
`skipped = 0` and `successRate = ⌊passed * 100 / total⌋` is merged into the
marker after every MAIN check invocation — but not after the repair path's
verification re-checks, so a failing run with a repair service performs
`2 * N` check invocations yet merges only `N` metrics records. -/
theorem claim_C10_metrics {env : StepEnv} {N : Nat}
    {resp inn : Nat → List Char} (vt : VType) (hN : 1 ≤ N)
    (hpre : ∀ i, (!(env.preCheck i).1
      && occursIn noFilesMsg (env.preCheck i).2) = false)
    (hchk : ∀ i, (env.check i).1 = true)
    (hllm : ∀ i, env.llm i = .ok (resp i))
    (hex : ∀ i, extractTsx (resp i) = some (inn i))
    (code : List Char) :
    ∃ c rem st, runStep vt env true true N code = .ok (false, c, rem, st)
      ∧ st.cChk = 2 * N
      ∧ st.merges = [inProgressVal] ++ (List.range N).map
          (fun i => JVal.jobj (metricsObj ((env.check (2 * i)).2.length))) := by
  obtain ⟨st', h1, h2, _, _, h5, _, _⟩ :=
    @runStepLoop_all_fail (hasPreCheck vt) (statusKey vt) env resp inn
      (fun _ => hpre) hchk hllm hex N
      ⟨update_migration_status code (mkKV (statusKey vt) inProgressVal), [],
        0, 0, 0, 0, [inProgressVal]⟩
  replace h2 : st'.cChk = 0 + 2 * N := h2
  replace h5 : st'.merges = [inProgressVal] ++ (List.range N).map
      (fun i => JVal.jobj (metricsObj ((env.check (0 + 2 * i)).2.length))) := h5
  refine ⟨st'.updated, st'.remaining, st', ?_, by omega, ?_⟩
  · show (match runStepLoop (hasPreCheck vt) (statusKey vt) env true true N
        ⟨update_migration_status code (mkKV (statusKey vt) inProgressVal), [],
          0, 0, 0, 0, [inProgressVal]⟩ with
      | .error e => .error e
      | .ok (.earlyExit st) =>
        .ok (false, update_migration_status code (mkKV (statusKey vt) inProgressVal),
          [⟨fileNotFoundMsg env.filePath, 2⟩], st)
      | .ok (.finished succ st) => .ok (succ, st.updated, st.remaining, st))
      = Except.ok (false, st'.updated, st'.remaining, st')
    rw [h1]
  · rw [h5]
    congr 1
    refine List.map_congr_left (fun i _ => ?_)
    rw [show 0 + 2 * i = 2 * i by omega]

/-- Witness for C10: `wEnv` at `N = 1`. -/
theorem claim_C10_witness :
    1 ≤ 1 ∧ ∃ c rem st,
      runStep .build wEnv true true 1 ("x".toList) = .ok (false, c, rem, st)
        ∧ st.cChk = 2 * 1
        ∧ st.merges = [inProgressVal] ++ (List.range 1).map
            (fun i => JVal.jobj (metricsObj ((wEnv.check (2 * i)).2.length))) :=
  ⟨Nat.le_refl 1,
    @claim_C10_metrics wEnv 1 (fun _ => ("```tsx\ny\n```".toList))
      (fun _ => ("y".toList)) .build (Nat.le_refl 1) (fun _ => rfl) (fun _ => rfl)
      (fun _ => rfl) (fun _ => rfl) ("x".toList)⟩

/-- Counterexample to C10 as stated: a run with two check invocations
merges only one metrics record (the in-progress merge plus one metrics
merge), not one per check invocation. -/
theorem claim_C10_cx :
    ∃ c rem st, runStep .build wEnv true true 1 ("x".toList)
      = .ok (false, c, rem, st) ∧ st.cChk = 2 ∧ st.merges.length = 2 :=
  ⟨_, _, _, rfl, by decide, by decide⟩

end LlmMigration
